import Mathlib

/-!
Verification of the protobuf wire-format decoder in `include/cppflow/pb_helper.h`.

Byte buffers (`std::string` of raw bytes) are modelled as `List Nat`; every
operation masks its bytes itself (`&&& 127`, `&&& 128`), exactly as the C++
code masks `uint8_t` values, so no side condition `b < 256` is needed.
A `ProtoReader` is a cursor: the buffer plus a position; the end bound
`end_` always equals the buffer length, because both constructors
(pb_helper.h:32-37) set `end_ = ptr_ + size`.

The C++ `while` loops are translated with an explicit, structural fuel
argument so that every definition is executable and kernel-reducible.
For `read_varint` the fuel is instantiated with `data.length - pos`, which
makes `fuel = 0` exactly the loop condition `ptr_ >= end_`.  For the message
loops the fuel is instantiated with `blob.length + 1`; the fuel-exhaustion
branch returns `none`, and the development proves it is never taken
(each iteration consumes at least the tag byte).
-/

namespace Cppflow

/-- Modulus of C++ `uint64_t` arithmetic. -/
def U64 : Nat := 2 ^ 64

/-- Modulus of C++ `uint32_t` arithmetic. -/
def U32 : Nat := 2 ^ 32

/-- Two's-complement reinterpretation `static_cast<int64_t>` of a `uint64_t`
value (pb_helper.h:100). -/
def toInt64 (n : Nat) : Int :=
  if n % U64 < 2 ^ 63 then (n % U64 : Int) else (n % U64 : Int) - (U64 : Int)

/-- Two's-complement reinterpretation `static_cast<int>` of a `uint64_t`
value (pb_helper.h:128); `int` is 32 bits wide. -/
def toInt32 (n : Nat) : Int :=
  if n % U32 < 2 ^ 31 then (n % U32 : Int) else (n % U32 : Int) - (U32 : Int)

/-- The loop of `ProtoReader::read_varint` (pb_helper.h:42-52).
`fuel` is maintained equal to `data.length - pos`, so `fuel = 0` holds
exactly when `ptr_ >= end_` and the translation is step-by-step faithful:
each iteration reads byte `b = *ptr_++`, accumulates
`val |= uint64_t(b & 0x7F) << shift` (64-bit, hence `% U64`) and stops when
the continuation bit `b & 0x80` is clear. -/
def read_varint_loop (data : List Nat) (pos val shift fuel : Nat) : Nat × Nat :=
  match fuel with
  | 0 => (val, pos)
  | fuel' + 1 =>
    let b := data.getD pos 0
    let val2 := (val ||| (b &&& 127) <<< shift) % U64
    if b &&& 128 = 0 then (val2, pos + 1)
    else read_varint_loop data (pos + 1) val2 (shift + 7) fuel'

/-- `ProtoReader::read_varint` (pb_helper.h:42-52): returns the decoded value
and the new cursor position. -/
def read_varint (data : List Nat) (pos : Nat) : Nat × Nat :=
  read_varint_loop data pos 0 0 (data.length - pos)

/-- `ProtoReader::read_bytes` (pb_helper.h:55-60): returns `len` raw bytes and
the new position; on the safety check `ptr_ + len > end_` it returns the
empty string without advancing. -/
def read_bytes (data : List Nat) (pos len : Nat) : List Nat × Nat :=
  if pos + len > data.length then ([], pos)
  else ((data.drop pos).take len, pos + len)

/-- `ProtoReader::read_string` (pb_helper.h:63-66): a varint length followed by
that many raw bytes. -/
def read_string (data : List Nat) (pos : Nat) : List Nat × Nat :=
  let (len, p) := read_varint data pos
  read_bytes data p len

/-- `ProtoReader::skip` (pb_helper.h:69-80): returns the new position.  Note
that the wire-type 1, 2 and 5 branches advance `ptr_` without a bounds
check, and that wire types other than 0, 1, 2, 5 leave the cursor
unchanged. -/
def skip (data : List Nat) (pos : Nat) (wire_type : Nat) : Nat :=
  if wire_type = 0 then (read_varint data pos).2
  else if wire_type = 2 then
    let (len, p) := read_varint data pos
    p + len
  else if wire_type = 5 then pos + 4
  else if wire_type = 1 then pos + 8
  else pos

/-- `struct TensorInfo` (pb_helper.h:14-18). -/
structure TensorInfo where
  name : List Nat := []
  dtype : Int := 0
  shape : List Int := []
deriving DecidableEq, Repr

/-- `std::map::operator[]` followed by assignment: insert the binding,
replacing an existing binding of the same key.  The association list keeps
insertion order; no claim observes the iteration order of the `std::map`. -/
def mapSet {α : Type} (m : List (List Nat × α)) (k : List Nat) (v : α) :
    List (List Nat × α) :=
  match m with
  | [] => [(k, v)]
  | (k', v') :: rest => if k' = k then (k, v) :: rest else (k', v') :: mapSet rest k v

/-- `std::map::find` / lookup. -/
def mapGet {α : Type} (m : List (List Nat × α)) (k : List Nat) : Option α :=
  match m with
  | [] => none
  | (k', v') :: rest => if k' = k then some v' else mapGet rest k

/-- `struct Signature` (pb_helper.h:20-24). -/
structure Signature where
  key : List Nat := []
  inputs : List (List Nat × TensorInfo) := []
  outputs : List (List Nat × TensorInfo) := []
deriving DecidableEq, Repr

/-- The inner `dim_reader` loop of `ParseTensorShape` (pb_helper.h:97-104).
Note the field test here is `(d_tag >> 3) == 1` on the full 64-bit tag,
with no `uint32_t` truncation (unlike every other loop). -/
def dim_loop (data : List Nat) (pos : Nat) (dims : List Int) (fuel : Nat) :
    Option (List Int) :=
  match fuel with
  | 0 => none
  | fuel' + 1 =>
    if pos < data.length then
      let (d_tag, p1) := read_varint data pos
      if d_tag >>> 3 = 1 then
        let (v, p2) := read_varint data p1
        dim_loop data p2 (dims ++ [toInt64 v]) fuel'
      else
        dim_loop data (skip data p1 (d_tag &&& 7)) dims fuel'
    else some dims

/-- The outer loop of `ParseTensorShape` (pb_helper.h:90-113).
`field = tag >> 3` is computed into a `uint32_t`, hence `% U32`.
The `field == 3` branch (unknown_rank, pb_helper.h:105-109) and the default
branch both just `reader.skip(tag & 7)`. -/
def shape_loop (data : List Nat) (pos : Nat) (dims : List Int) (fuel : Nat) :
    Option (List Int) :=
  match fuel with
  | 0 => none
  | fuel' + 1 =>
    if pos < data.length then
      let (tag, p1) := read_varint data pos
      let field := (tag >>> 3) % U32
      if field = 2 then
        let (dim_blob, p2) := read_string data p1
        match dim_loop dim_blob 0 dims (dim_blob.length + 1) with
        | none => none
        | some dims2 => shape_loop data p2 dims2 fuel'
      else if field = 3 then
        shape_loop data (skip data p1 (tag &&& 7)) dims fuel'
      else
        shape_loop data (skip data p1 (tag &&& 7)) dims fuel'
    else some dims

/-- `ParseTensorShape` (pb_helper.h:86-115). -/
def ParseTensorShape (blob : List Nat) : Option (List Int) :=
  shape_loop blob 0 [] (blob.length + 1)

/-- The loop of `ParseTensorInfo` (pb_helper.h:121-134). -/
def info_loop (data : List Nat) (pos : Nat) (info : TensorInfo) (fuel : Nat) :
    Option TensorInfo :=
  match fuel with
  | 0 => none
  | fuel' + 1 =>
    if pos < data.length then
      let (tag, p1) := read_varint data pos
      let field := (tag >>> 3) % U32
      if field = 1 then
        let (nm, p2) := read_string data p1
        info_loop data p2 { info with name := nm } fuel'
      else if field = 2 then
        let (v, p2) := read_varint data p1
        info_loop data p2 { info with dtype := toInt32 v } fuel'
      else if field = 3 then
        let (sb, p2) := read_string data p1
        match ParseTensorShape sb with
        | none => none
        | some sh => info_loop data p2 { info with shape := sh } fuel'
      else
        info_loop data (skip data p1 (tag &&& 7)) info fuel'
    else some info

/-- `ParseTensorInfo` (pb_helper.h:118-136). -/
def ParseTensorInfo (blob : List Nat) : Option TensorInfo :=
  info_loop blob 0 {} (blob.length + 1)

/-- The key/value scanning loop shared verbatim by `ParseIOMapEntry`
(pb_helper.h:144-150, accumulating `key` and `value_blob`) and by the
signature map-entry loop inside `ParseSignatures` (pb_helper.h:193-199,
accumulating `sig_key` and `sig_val_blob`): field 1 is a string key, field 2
a string value payload, anything else is skipped. -/
def kv_entry_loop (data : List Nat) (pos : Nat) (key value_blob : List Nat)
    (fuel : Nat) : Option (List Nat × List Nat) :=
  match fuel with
  | 0 => none
  | fuel' + 1 =>
    if pos < data.length then
      let (tag, p1) := read_varint data pos
      let field := (tag >>> 3) % U32
      if field = 1 then
        let (k, p2) := read_string data p1
        kv_entry_loop data p2 k value_blob fuel'
      else if field = 2 then
        let (vb, p2) := read_string data p1
        kv_entry_loop data p2 key vb fuel'
      else
        kv_entry_loop data (skip data p1 (tag &&& 7)) key value_blob fuel'
    else some (key, value_blob)

/-- `ParseIOMapEntry` (pb_helper.h:139-155): scan the entry, then insert into
`target_map` only when both the key and the value payload are non-empty. -/
def ParseIOMapEntry (blob : List Nat) (target_map : List (List Nat × TensorInfo)) :
    Option (List (List Nat × TensorInfo)) :=
  match kv_entry_loop blob 0 [] [] (blob.length + 1) with
  | none => none
  | some (key, value_blob) =>
    if key ≠ [] ∧ value_blob ≠ [] then
      match ParseTensorInfo value_blob with
      | none => none
      | some ti => some (mapSet target_map key ti)
    else some target_map

/-- The loop of `ParseSignatureDef` (pb_helper.h:162-173): fields 1 and 2 are
map entries parsed into `inputs` resp. `outputs`. -/
def sigdef_loop (data : List Nat) (pos : Nat) (sig : Signature) (fuel : Nat) :
    Option Signature :=
  match fuel with
  | 0 => none
  | fuel' + 1 =>
    if pos < data.length then
      let (tag, p1) := read_varint data pos
      let field := (tag >>> 3) % U32
      if field = 1 ∨ field = 2 then
        let (map_entry_blob, p2) := read_string data p1
        if field = 1 then
          match ParseIOMapEntry map_entry_blob sig.inputs with
          | none => none
          | some m => sigdef_loop data p2 { sig with inputs := m } fuel'
        else
          match ParseIOMapEntry map_entry_blob sig.outputs with
          | none => none
          | some m => sigdef_loop data p2 { sig with outputs := m } fuel'
      else
        sigdef_loop data (skip data p1 (tag &&& 7)) sig fuel'
    else some sig

/-- `ParseSignatureDef` (pb_helper.h:158-175). -/
def ParseSignatureDef (blob : List Nat) : Option Signature :=
  sigdef_loop blob 0 {} (blob.length + 1)

/-- The body of the `field == 5` branch of `ParseSignatures`
(pb_helper.h:188-204): scan the map entry for `sig_key` / `sig_val_blob`;
when both are non-empty store `ParseSignatureDef(sig_val_blob)` under
`sig_key` and then set its `.key` member (pb_helper.h:201-204). -/
def signatures_entry (signatures : List (List Nat × Signature))
    (map_entry_blob : List Nat) : Option (List (List Nat × Signature)) :=
  match kv_entry_loop map_entry_blob 0 [] [] (map_entry_blob.length + 1) with
  | none => none
  | some (sig_key, sig_val_blob) =>
    if sig_key ≠ [] ∧ sig_val_blob ≠ [] then
      match ParseSignatureDef sig_val_blob with
      | none => none
      | some s => some (mapSet signatures sig_key { s with key := sig_key })
    else some signatures

/-- The loop of `ParseSignatures` (pb_helper.h:182-208): field 5
(`signature_def`) is read as a length-delimited map entry, everything else
is skipped. -/
def signatures_loop (data : List Nat) (pos : Nat)
    (signatures : List (List Nat × Signature)) (fuel : Nat) :
    Option (List (List Nat × Signature)) :=
  match fuel with
  | 0 => none
  | fuel' + 1 =>
    if pos < data.length then
      let (tag, p1) := read_varint data pos
      let field := (tag >>> 3) % U32
      if field = 5 then
        let (map_entry_blob, p2) := read_string data p1
        match signatures_entry signatures map_entry_blob with
        | none => none
        | some s2 => signatures_loop data p2 s2 fuel'
      else
        signatures_loop data (skip data p1 (tag &&& 7)) signatures fuel'
    else some signatures

/-- `ParseSignatures` (pb_helper.h:178-210). -/
def ParseSignatures (blob : List Nat) : Option (List (List Nat × Signature)) :=
  signatures_loop blob 0 [] (blob.length + 1)

/-! ### Wire-format encoders, used only to state claims about well-formed input

These definitions follow the protobuf wire format as the specification
describes it (base-128 varints with 7 payload bits per byte and the high bit
as continuation; tag = field number `<< 3 | wire type`); they are not part of
the C++ source, which only decodes. -/

/-- Base-128 varint encoder: 7 payload bits per byte, high bit = continuation.
Ten bytes are enough for every value below `2 ^ 70`; all theorems about the
encoder restrict values to below `U64 = 2 ^ 64`. -/
def encodeVarintAux (v fuel : Nat) : List Nat :=
  match fuel with
  | 0 => []
  | fuel' + 1 => if v < 128 then [v] else (v % 128 + 128) :: encodeVarintAux (v / 128) fuel'

/-- Base-128 varint encoding of `v` (for `v < 2 ^ 70`). -/
def encodeVarint (v : Nat) : List Nat := encodeVarintAux v 10

/-- A well-formed protobuf field value of one of the four supported wire
types. -/
inductive FieldVal where
  | vint (v : Nat)
  | fixed64 (bytes : List Nat)
  | ldelim (payload : List Nat)
  | fixed32 (bytes : List Nat)
deriving DecidableEq, Repr

/-- The wire type a conforming encoder puts in the tag of a `FieldVal`. -/
def wireOf : FieldVal → Nat
  | .vint _ => 0
  | .fixed64 _ => 1
  | .ldelim _ => 2
  | .fixed32 _ => 5

/-- Encoding of a field value (without its tag). -/
def encFieldVal : FieldVal → List Nat
  | .vint v => encodeVarint v
  | .fixed64 bs => bs
  | .ldelim p => encodeVarint p.length ++ p
  | .fixed32 bs => bs

/-- Well-formedness of a field value: fixed-width values have the right byte
count, and varint values / payload lengths fit in `uint64_t`. -/
def FieldVal.wf : FieldVal → Prop
  | .vint v => v < U64
  | .fixed64 bs => bs.length = 8
  | .ldelim p => p.length < U64
  | .fixed32 bs => bs.length = 4

instance : DecidablePred FieldVal.wf := fun fv => by
  unfold FieldVal.wf; cases fv <;> infer_instance

/-- Encoding of one field: varint tag `8 * num + wire_type`, then the value. -/
def encField (f : Nat × FieldVal) : List Nat :=
  encodeVarint (8 * f.1 + wireOf f.2) ++ encFieldVal f.2

/-- Concatenation of encoded fields: a well-formed wire-format message. -/
def encFields (fs : List (Nat × FieldVal)) : List Nat :=
  match fs with
  | [] => []
  | f :: rest => encField f ++ encFields rest

/-- Whether a field value is length-delimited. -/
def FieldVal.isLdelim : FieldVal → Bool
  | .ldelim _ => true
  | _ => false

/-- A well-formed field of the outer `MetaGraphDef` message: the field number
fits in `uint32_t`, the value is well formed, and field 5 (`signature_def`,
the one field of the outer message the schema declares as a sub-message)
carries a length-delimited value. -/
def OuterWF (f : Nat × FieldVal) : Prop :=
  f.1 < U32 ∧ f.2.wf ∧ (f.1 = 5 → f.2.isLdelim = true)

instance : DecidablePred OuterWF := fun f => by
  unfold OuterWF; infer_instance

/-- The effect of one outer field on the signature table: field 5 runs the
map-entry handler on its payload, every other field is skipped and leaves
the table unchanged.  (The catch-all for a field-5 value that is not
length-delimited is excluded by `OuterWF`.) -/
def outer_field_effect (acc : List (List Nat × Signature)) (f : Nat × FieldVal) :
    Option (List (List Nat × Signature)) :=
  if f.1 = 5 then
    match f.2 with
    | .ldelim p => signatures_entry acc p
    | _ => some acc
  else some acc

/-- Folding `outer_field_effect` over a field list: the table produced by
decoding a well-formed outer message. -/
def run_outer_fields (acc : List (List Nat × Signature))
    (fs : List (Nat × FieldVal)) : Option (List (List Nat × Signature)) :=
  match fs with
  | [] => some acc
  | f :: rest =>
    match outer_field_effect acc f with
    | none => none
    | some acc2 => run_outer_fields acc2 rest

/-- Canonical encoding of a two-field map entry: field 1 = key bytes,
field 2 = value payload.  This is the shape of both the `signature_def`
map entries and the `inputs`/`outputs` map entries. -/
def entryEnc (k vb : List Nat) : List Nat :=
  encField (1, .ldelim k) ++ encField (2, .ldelim vb)

/-! ### Bitwise arithmetic helpers -/

lemma or_mod_two_pow (a b n : Nat) : (a % 2 ^ n ||| b) % 2 ^ n = (a ||| b) % 2 ^ n := by
  apply Nat.eq_of_testBit_eq
  intro i
  simp only [Nat.testBit_mod_two_pow, Nat.testBit_or]
  by_cases h : i < n <;> simp [h]

lemma or_mod_U64 (a b : Nat) : (a % U64 ||| b) % U64 = (a ||| b) % U64 :=
  or_mod_two_pow a b 64

lemma shiftLeft_or_distrib (a b k : Nat) : (a ||| b) <<< k = a <<< k ||| b <<< k := by
  apply Nat.eq_of_testBit_eq
  intro i
  simp only [Nat.testBit_shiftLeft, Nat.testBit_or]
  by_cases h : k ≤ i <;> simp [h]

lemma lor_shift_eq_add (a b k : Nat) (h : a < 2 ^ k) : a ||| b <<< k = a + 2 ^ k * b := by
  have hmod : (a ||| b <<< k) % 2 ^ k = a := by
    apply Nat.eq_of_testBit_eq
    intro i
    simp only [Nat.testBit_mod_two_pow, Nat.testBit_or, Nat.testBit_shiftLeft]
    by_cases hik : i < k
    · simp [hik, Nat.not_le.mpr hik]
    · have : a < 2 ^ i := lt_of_lt_of_le h (Nat.pow_le_pow_right (by norm_num) (by omega))
      simp [hik, Nat.testBit_lt_two_pow this]
  have hdiv : (a ||| b <<< k) / 2 ^ k = b := by
    have hsr : (a ||| b <<< k) >>> k = b := by
      apply Nat.eq_of_testBit_eq
      intro i
      simp only [Nat.testBit_shiftRight, Nat.testBit_or, Nat.testBit_shiftLeft]
      have ha : a.testBit (k + i) = false :=
        Nat.testBit_lt_two_pow
          (lt_of_lt_of_le h (Nat.pow_le_pow_right (by norm_num) (by omega)))
      simp [ha, Nat.le_add_right, Nat.add_sub_cancel_left]
    rw [← Nat.shiftRight_eq_div_pow]
    exact hsr
  have := Nat.div_add_mod (a ||| b <<< k) (2 ^ k)
  rw [hdiv, hmod] at this
  omega

lemma and_127_eq (b : Nat) : b &&& 127 = b % 128 := by
  have h : b &&& (2 ^ 7 - 1) = b % 2 ^ 7 := Nat.and_pow_two_sub_one_eq_mod b 7
  norm_num at h
  exact h

lemma and_128_low (b : Nat) (h : b < 128) : b &&& 128 = 0 := by
  have h7 : b.testBit 7 = false := Nat.testBit_lt_two_pow (by norm_num at h ⊢; omega)
  have := Nat.and_two_pow b 7
  norm_num [h7] at this
  exact this

lemma and_128_high (b : Nat) (h1 : 128 ≤ b) (h2 : b < 256) : b &&& 128 = 128 := by
  have h7 : b.testBit 7 = true := by
    simp only [Nat.testBit_to_div_mod, decide_eq_true_eq,
      show (2 : Nat) ^ 7 = 128 from by norm_num]
    omega
  have := Nat.and_two_pow b 7
  norm_num [h7] at this
  exact this

/-! ### Varint encoder basics -/

lemma encodeVarintAux_irrel : ∀ (f g v : Nat), v < 128 ^ f → v < 128 ^ g →
    1 ≤ f → 1 ≤ g → encodeVarintAux v f = encodeVarintAux v g := by
  intro f
  induction f with
  | zero => omega
  | succ f' ihf =>
    intro g v hvf hvg _ hg
    obtain ⟨g', rfl⟩ : ∃ g', g = g' + 1 := ⟨g - 1, by omega⟩
    by_cases h128 : v < 128
    · simp [encodeVarintAux, h128]
    · have hv : 0 < v := by omega
      have hf' : 1 ≤ f' := by
        rcases Nat.eq_zero_or_pos f' with h | h
        · subst h; simp at hvf; omega
        · exact h
      have hg' : 1 ≤ g' := by
        rcases Nat.eq_zero_or_pos g' with h | h
        · subst h; simp at hvg; omega
        · exact h
      have hdf : v / 128 < 128 ^ f' := by
        rw [Nat.div_lt_iff_lt_mul (by norm_num)]
        calc v < 128 ^ (f' + 1) := hvf
        _ = 128 ^ f' * 128 := by ring
      have hdg : v / 128 < 128 ^ g' := by
        rw [Nat.div_lt_iff_lt_mul (by norm_num)]
        calc v < 128 ^ (g' + 1) := hvg
        _ = 128 ^ g' * 128 := by ring
      simp only [encodeVarintAux, if_neg h128]
      rw [ihf g' (v / 128) hdf hdg hf' hg']

lemma encodeVarintAux_succ (v f : Nat) :
    encodeVarintAux v (f + 1)
      = if v < 128 then [v] else (v % 128 + 128) :: encodeVarintAux (v / 128) f := rfl

lemma encodeVarint_eq (v : Nat) (hv : v < 2 ^ 70) :
    encodeVarint v = if v < 128 then [v] else (v % 128 + 128) :: encodeVarint (v / 128) := by
  have h10 : encodeVarint v = encodeVarintAux v (9 + 1) := rfl
  rw [h10, encodeVarintAux_succ]
  by_cases h128 : v < 128
  · rw [if_pos h128, if_pos h128]
  · rw [if_neg h128, if_neg h128]
    have hd : v / 128 < 128 ^ 9 := by
      rw [Nat.div_lt_iff_lt_mul (by norm_num)]
      calc v < 2 ^ 70 := hv
      _ = 128 ^ 9 * 128 := by norm_num
    rw [encodeVarintAux_irrel 9 10 (v / 128) hd
      (lt_of_lt_of_le hd (Nat.pow_le_pow_right (by norm_num) (by norm_num)))
      (by norm_num) (by norm_num)]
    rfl

lemma encodeVarint_length_pos (v : Nat) : 1 ≤ (encodeVarint v).length := by
  have h10 : encodeVarint v = encodeVarintAux v (9 + 1) := rfl
  rw [h10, encodeVarintAux_succ]
  split <;> simp

lemma encodeVarintAux_length_le : ∀ (f v : Nat), (encodeVarintAux v f).length ≤ f := by
  intro f
  induction f with
  | zero => intro v; simp [encodeVarintAux]
  | succ f' ih =>
    intro v
    simp only [encodeVarintAux]
    split
    · simp
    · simpa using Nat.succ_le_succ (ih (v / 128))

lemma encodeVarint_length_le (v : Nat) : (encodeVarint v).length ≤ 10 :=
  encodeVarintAux_length_le 10 v

/-! ### Buffer drop-view helpers -/

lemma lt_length_of_drop {data : List Nat} {pos : Nat} {b : Nat} {rest : List Nat}
    (h : data.drop pos = b :: rest) : pos < data.length := by
  have := congrArg List.length h
  simp at this
  omega

lemma getD_of_drop {data : List Nat} {pos : Nat} {b : Nat} {rest : List Nat}
    (h : data.drop pos = b :: rest) : data.getD pos 0 = b := by
  have h0 : data[pos + 0]? = (data.drop pos)[0]? := (List.getElem?_drop data pos 0).symm
  rw [h] at h0
  simp at h0
  simp [List.getD_eq_getElem?_getD, h0]

lemma drop_succ_of_drop {data : List Nat} {pos : Nat} {b : Nat} {rest : List Nat}
    (h : data.drop pos = b :: rest) : data.drop (pos + 1) = rest := by
  rw [← List.drop_drop 1 pos data, h]
  rfl

lemma drop_add_of_drop {data : List Nat} {pos : Nat} {l1 rest : List Nat}
    (h : data.drop pos = l1 ++ rest) : data.drop (pos + l1.length) = rest := by
  rw [← List.drop_drop l1.length pos data, h, List.drop_left]

/-! ### Reader-operation lemmas -/

lemma read_varint_loop_enc (v : Nat) (hv : v < 2 ^ 70) :
    ∀ (data rest : List Nat) (pos val shift : Nat),
    data.drop pos = encodeVarint v ++ rest →
    read_varint_loop data pos val shift (data.length - pos)
      = ((val ||| v <<< shift) % U64, pos + (encodeVarint v).length) := by
  induction v using Nat.strong_induction_on with
  | _ v ih =>
    intro data rest pos val shift hdrop
    have hee := encodeVarint_eq v hv
    by_cases h128 : v < 128
    · rw [hee, if_pos h128] at hdrop
      simp only [List.cons_append, List.nil_append] at hdrop
      have hpos : pos < data.length := lt_length_of_drop hdrop
      have hb : data.getD pos 0 = v := getD_of_drop hdrop
      have hfuel : data.length - pos = (data.length - (pos + 1)) + 1 := by omega
      have hlen : (encodeVarint v).length = 1 := by rw [hee, if_pos h128]; rfl
      rw [hfuel]
      simp only [read_varint_loop, hb, and_127_eq, and_128_low v h128, if_pos rfl,
        Nat.mod_eq_of_lt h128, hlen]
      simp
    · rw [hee, if_neg h128] at hdrop
      simp only [List.cons_append] at hdrop
      have hpos : pos < data.length := lt_length_of_drop hdrop
      have hb : data.getD pos 0 = v % 128 + 128 := getD_of_drop hdrop
      have hfuel : data.length - pos = (data.length - (pos + 1)) + 1 := by omega
      have hand7 : (v % 128 + 128) &&& 127 = v % 128 := by
        rw [and_127_eq]; omega
      have hand8 : (v % 128 + 128) &&& 128 = 128 :=
        and_128_high _ (by omega) (by omega)
      have hdrop' : data.drop (pos + 1) = encodeVarint (v / 128) ++ rest :=
        drop_succ_of_drop hdrop
      have hvd : v / 128 < 2 ^ 70 := lt_of_le_of_lt (Nat.div_le_self v 128) hv
      have hlt : v / 128 < v := Nat.div_lt_self (by omega) (by norm_num)
      rw [hfuel]
      simp only [read_varint_loop, hb, hand7, hand8]
      rw [if_neg (by norm_num)]
      rw [ih (v / 128) hlt hvd data rest (pos + 1) _ _ hdrop']
      have hlen : (encodeVarint v).length = (encodeVarint (v / 128)).length + 1 := by
        rw [hee, if_neg h128]; simp
      rw [Prod.mk.injEq]
      refine ⟨?_, by rw [hlen]; omega⟩
      -- value accumulation
      rw [or_mod_U64, Nat.or_assoc]
      have hsplit : (v % 128) <<< shift ||| (v / 128) <<< (shift + 7) = v <<< shift := by
        have h1 : (v / 128) <<< (shift + 7) = ((v / 128) <<< 7) <<< shift := by
          rw [Nat.add_comm shift 7, Nat.shiftLeft_add]
        rw [h1, ← shiftLeft_or_distrib]
        have h2 : v % 128 ||| (v / 128) <<< 7 = v % 128 + 2 ^ 7 * (v / 128) :=
          lor_shift_eq_add _ _ 7 (by norm_num; omega)
        rw [h2]
        have := Nat.div_add_mod v 128
        congr 1
        norm_num
        omega
      rw [hsplit]

lemma U32_eq : U32 = 4294967296 := by norm_num [U32]

lemma U64_eq : U64 = 18446744073709551616 := by norm_num [U64]

lemma read_varint_enc {data rest : List Nat} {pos v : Nat} (hv : v < U64)
    (hdrop : data.drop pos = encodeVarint v ++ rest) :
    read_varint data pos = (v, pos + (encodeVarint v).length) := by
  have h70 : v < 2 ^ 70 := lt_of_lt_of_le hv (by norm_num [U64])
  unfold read_varint
  rw [read_varint_loop_enc v h70 data rest pos 0 0 hdrop]
  simp [Nat.shiftLeft_zero, Nat.mod_eq_of_lt hv]

lemma read_varint_loop_snd_le (data : List Nat) :
    ∀ (fuel pos val shift : Nat), (read_varint_loop data pos val shift fuel).2 ≤ pos + fuel := by
  intro fuel
  induction fuel with
  | zero => intro pos val shift; simp [read_varint_loop]
  | succ f ih =>
    intro pos val shift
    simp only [read_varint_loop]
    split
    · simp
    · exact le_trans (ih (pos + 1) _ _) (by omega)

lemma le_read_varint_loop_snd (data : List Nat) :
    ∀ (fuel pos val shift : Nat), pos ≤ (read_varint_loop data pos val shift fuel).2 := by
  intro fuel
  induction fuel with
  | zero => intro pos val shift; simp [read_varint_loop]
  | succ f ih =>
    intro pos val shift
    simp only [read_varint_loop]
    split
    · simp
    · exact le_trans (by omega) (ih (pos + 1) _ _)

lemma le_read_varint_snd (data : List Nat) (pos : Nat) : pos ≤ (read_varint data pos).2 :=
  le_read_varint_loop_snd data _ pos 0 0

lemma read_varint_snd_le {data : List Nat} {pos : Nat} (h : pos ≤ data.length) :
    (read_varint data pos).2 ≤ data.length :=
  le_trans (read_varint_loop_snd_le data _ pos 0 0) (by omega)

lemma lt_read_varint_snd {data : List Nat} {pos : Nat} (h : pos < data.length) :
    pos < (read_varint data pos).2 := by
  unfold read_varint
  have hfuel : data.length - pos = (data.length - (pos + 1)) + 1 := by omega
  rw [hfuel]
  simp only [read_varint_loop]
  split
  · simp
  · exact lt_of_lt_of_le (by omega) (le_read_varint_loop_snd data _ (pos + 1) _ _)

lemma le_read_bytes_snd (data : List Nat) (pos len : Nat) :
    pos ≤ (read_bytes data pos len).2 := by
  unfold read_bytes
  split <;> simp

lemma read_bytes_snd_le {data : List Nat} {pos : Nat} (len : Nat) (h : pos ≤ data.length) :
    (read_bytes data pos len).2 ≤ data.length := by
  unfold read_bytes
  split
  · simpa using h
  · simp; omega

lemma read_string_def (data : List Nat) (pos : Nat) :
    read_string data pos = read_bytes data (read_varint data pos).2 (read_varint data pos).1 := rfl

lemma le_read_string_snd (data : List Nat) (pos : Nat) : pos ≤ (read_string data pos).2 := by
  rw [read_string_def]
  exact le_trans (le_read_varint_snd data pos) (le_read_bytes_snd data _ _)

lemma read_string_snd_le {data : List Nat} {pos : Nat} (h : pos ≤ data.length) :
    (read_string data pos).2 ≤ data.length := by
  rw [read_string_def]
  exact read_bytes_snd_le _ (read_varint_snd_le h)

lemma read_bytes_enc {data : List Nat} {pos : Nat} (p rest : List Nat)
    (hdrop : data.drop pos = p ++ rest) :
    read_bytes data pos p.length = (p, pos + p.length) := by
  have hlen := congrArg List.length hdrop
  simp at hlen
  unfold read_bytes
  by_cases hc : pos + p.length > data.length
  · have hp : p.length = 0 := by omega
    have hpnil : p = [] := List.length_eq_zero.mp hp
    rw [if_pos hc]
    simp [hpnil]
  · rw [if_neg hc, hdrop, List.take_left]

lemma read_string_enc {data : List Nat} {pos : Nat} (p rest : List Nat) (hp : p.length < U64)
    (hdrop : data.drop pos = encodeVarint p.length ++ (p ++ rest)) :
    read_string data pos = (p, pos + (encodeVarint p.length).length + p.length) := by
  rw [read_string_def, read_varint_enc hp hdrop]
  exact read_bytes_enc p rest (drop_add_of_drop hdrop)

lemma skip_zero_def (data : List Nat) (pos : Nat) :
    skip data pos 0 = (read_varint data pos).2 := rfl

lemma skip_two_def (data : List Nat) (pos : Nat) :
    skip data pos 2 = (read_varint data pos).2 + (read_varint data pos).1 := by
  show (if (2 : Nat) = 0 then _ else _) = _
  norm_num

lemma skip_five_def (data : List Nat) (pos : Nat) : skip data pos 5 = pos + 4 := by
  show (if (5 : Nat) = 0 then _ else _) = _
  norm_num

lemma skip_one_def (data : List Nat) (pos : Nat) : skip data pos 1 = pos + 8 := by
  show (if (1 : Nat) = 0 then _ else _) = _
  norm_num

lemma skip_other_def (data : List Nat) (pos : Nat) (wt : Nat)
    (h0 : wt ≠ 0) (h1 : wt ≠ 1) (h2 : wt ≠ 2) (h5 : wt ≠ 5) : skip data pos wt = pos := by
  unfold skip
  rw [if_neg h0, if_neg h2, if_neg h5, if_neg h1]

lemma le_skip (data : List Nat) (pos wt : Nat) : pos ≤ skip data pos wt := by
  unfold skip
  split_ifs
  · exact le_read_varint_snd data pos
  · refine le_trans (le_read_varint_snd data pos) ?_
    show (read_varint data pos).2 ≤ (read_varint data pos).2 + (read_varint data pos).1
    omega
  · omega
  · omega
  · omega

lemma skip_enc {data rest : List Nat} {pos : Nat} (fv : FieldVal) (hwf : fv.wf)
    (hdrop : data.drop pos = encFieldVal fv ++ rest) :
    skip data pos (wireOf fv) = pos + (encFieldVal fv).length := by
  cases fv with
  | vint v =>
    simp only [FieldVal.wf] at hwf
    simp only [wireOf, encFieldVal] at hdrop ⊢
    rw [skip_zero_def, read_varint_enc hwf hdrop]
  | fixed64 bs =>
    simp only [FieldVal.wf] at hwf
    simp only [wireOf, encFieldVal] at hdrop ⊢
    rw [skip_one_def, hwf]
  | ldelim p =>
    simp only [FieldVal.wf] at hwf
    simp only [wireOf, encFieldVal] at hdrop ⊢
    rw [List.append_assoc] at hdrop
    rw [skip_two_def, read_varint_enc hwf hdrop]
    simp
    omega
  | fixed32 bs =>
    simp only [FieldVal.wf] at hwf
    simp only [wireOf, encFieldVal] at hdrop ⊢
    rw [skip_five_def, hwf]

/-! ### Tag arithmetic -/

lemma tag_shift (n wt : Nat) (hwt : wt < 8) : (8 * n + wt) >>> 3 = n := by
  rw [Nat.shiftRight_eq_div_pow]
  norm_num
  omega

lemma tag_and7 (n wt : Nat) (hwt : wt < 8) : (8 * n + wt) &&& 7 = wt := by
  have h : (8 * n + wt) &&& (2 ^ 3 - 1) = (8 * n + wt) % 2 ^ 3 :=
    Nat.and_pow_two_sub_one_eq_mod _ 3
  norm_num at h
  rw [h]
  omega

lemma tag_lt_U64 {n wt : Nat} (hn : n < U32) (hwt : wt < 8) : 8 * n + wt < U64 := by
  rw [U32_eq] at hn
  rw [U64_eq]
  omega

lemma encField_def (n : Nat) (fv : FieldVal) :
    encField (n, fv) = encodeVarint (8 * n + wireOf fv) ++ encFieldVal fv := rfl

lemma encField_length_pos (f : Nat × FieldVal) : 1 ≤ (encField f).length := by
  obtain ⟨n, fv⟩ := f
  rw [encField_def]
  simp
  have := encodeVarint_length_pos (8 * n + wireOf fv)
  omega

lemma encFields_append (fs gs : List (Nat × FieldVal)) :
    encFields (fs ++ gs) = encFields fs ++ encFields gs := by
  induction fs with
  | nil => simp [encFields]
  | cons f rest ih => simp [encFields, ih]

lemma length_le_encFields (fs : List (Nat × FieldVal)) :
    fs.length ≤ (encFields fs).length := by
  induction fs with
  | nil => simp [encFields]
  | cons f rest ih =>
    simp only [encFields, List.length_append, List.length_cons]
    have := encField_length_pos f
    omega

/-! ### Totality: with fuel `data.length + 1` no loop ever runs out

Every loop iteration starts by reading the tag varint, which strictly
consumes at least one byte while `pos < data.length`; the handlers only move
the cursor forward.  Hence `data.length - pos` strictly decreases and fuel
exceeding it can never be exhausted. -/

lemma dim_loop_isSome (data : List Nat) :
    ∀ (fuel pos : Nat) (dims : List Int), data.length - pos < fuel →
    (dim_loop data pos dims fuel).isSome := by
  intro fuel
  induction fuel with
  | zero => intro pos dims h; omega
  | succ f ih =>
    intro pos dims h
    by_cases hpos : pos < data.length
    · rcases hrv : read_varint data pos with ⟨t, p1⟩
      have hp1 : pos < p1 := by
        have := lt_read_varint_snd hpos; rw [hrv] at this; exact this
      simp only [dim_loop, if_pos hpos, hrv]
      split
      · rcases hrv2 : read_varint data p1 with ⟨v, p2⟩
        have hp2 : p1 ≤ p2 := by
          have := le_read_varint_snd data p1; rw [hrv2] at this; exact this
        simp only [hrv2]
        exact ih p2 _ (by omega)
      · have hsk : p1 ≤ skip data p1 (t &&& 7) := le_skip data p1 _
        exact ih _ dims (by omega)
    · simp [dim_loop, hpos]

lemma shape_loop_isSome (data : List Nat) :
    ∀ (fuel pos : Nat) (dims : List Int), data.length - pos < fuel →
    (shape_loop data pos dims fuel).isSome := by
  intro fuel
  induction fuel with
  | zero => intro pos dims h; omega
  | succ f ih =>
    intro pos dims h
    by_cases hpos : pos < data.length
    · rcases hrv : read_varint data pos with ⟨t, p1⟩
      have hp1 : pos < p1 := by
        have := lt_read_varint_snd hpos; rw [hrv] at this; exact this
      simp only [shape_loop, if_pos hpos, hrv]
      split
      · rcases hrs : read_string data p1 with ⟨blob, p2⟩
        have hp2 : p1 ≤ p2 := by
          have := le_read_string_snd data p1; rw [hrs] at this; exact this
        simp only [hrs]
        have hdim := dim_loop_isSome blob (blob.length + 1) 0 dims (by omega)
        rcases hdl : dim_loop blob 0 dims (blob.length + 1) with _ | dims2
        · rw [hdl] at hdim; simp at hdim
        · simp only [hdl]
          exact ih p2 dims2 (by omega)
      · split
        · have hsk : p1 ≤ skip data p1 (t &&& 7) := le_skip data p1 _
          exact ih _ dims (by omega)
        · have hsk : p1 ≤ skip data p1 (t &&& 7) := le_skip data p1 _
          exact ih _ dims (by omega)
    · simp [shape_loop, hpos]

lemma ParseTensorShape_isSome (blob : List Nat) : (ParseTensorShape blob).isSome :=
  shape_loop_isSome blob (blob.length + 1) 0 [] (by omega)

lemma info_loop_isSome (data : List Nat) :
    ∀ (fuel pos : Nat) (info : TensorInfo), data.length - pos < fuel →
    (info_loop data pos info fuel).isSome := by
  intro fuel
  induction fuel with
  | zero => intro pos info h; omega
  | succ f ih =>
    intro pos info h
    by_cases hpos : pos < data.length
    · rcases hrv : read_varint data pos with ⟨t, p1⟩
      have hp1 : pos < p1 := by
        have := lt_read_varint_snd hpos; rw [hrv] at this; exact this
      simp only [info_loop, if_pos hpos, hrv]
      split
      · rcases hrs : read_string data p1 with ⟨blob, p2⟩
        have hp2 : p1 ≤ p2 := by
          have := le_read_string_snd data p1; rw [hrs] at this; exact this
        simp only [hrs]
        exact ih p2 _ (by omega)
      · split
        · rcases hrv2 : read_varint data p1 with ⟨v, p2⟩
          have hp2 : p1 ≤ p2 := by
            have := le_read_varint_snd data p1; rw [hrv2] at this; exact this
          simp only [hrv2]
          exact ih p2 _ (by omega)
        · split
          · rcases hrs : read_string data p1 with ⟨blob, p2⟩
            have hp2 : p1 ≤ p2 := by
              have := le_read_string_snd data p1; rw [hrs] at this; exact this
            simp only [hrs]
            have hsh := ParseTensorShape_isSome blob
            rcases hps : ParseTensorShape blob with _ | sh
            · rw [hps] at hsh; simp at hsh
            · simp only [hps]
              exact ih p2 _ (by omega)
          · have hsk : p1 ≤ skip data p1 (t &&& 7) := le_skip data p1 _
            exact ih _ info (by omega)
    · simp [info_loop, hpos]

lemma ParseTensorInfo_isSome (blob : List Nat) : (ParseTensorInfo blob).isSome :=
  info_loop_isSome blob (blob.length + 1) 0 {} (by omega)

lemma kv_entry_loop_isSome (data : List Nat) :
    ∀ (fuel pos : Nat) (key vb : List Nat), data.length - pos < fuel →
    (kv_entry_loop data pos key vb fuel).isSome := by
  intro fuel
  induction fuel with
  | zero => intro pos key vb h; omega
  | succ f ih =>
    intro pos key vb h
    by_cases hpos : pos < data.length
    · rcases hrv : read_varint data pos with ⟨t, p1⟩
      have hp1 : pos < p1 := by
        have := lt_read_varint_snd hpos; rw [hrv] at this; exact this
      simp only [kv_entry_loop, if_pos hpos, hrv]
      split
      · rcases hrs : read_string data p1 with ⟨k, p2⟩
        have hp2 : p1 ≤ p2 := by
          have := le_read_string_snd data p1; rw [hrs] at this; exact this
        simp only [hrs]
        exact ih p2 _ _ (by omega)
      · split
        · rcases hrs : read_string data p1 with ⟨vb2, p2⟩
          have hp2 : p1 ≤ p2 := by
            have := le_read_string_snd data p1; rw [hrs] at this; exact this
          simp only [hrs]
          exact ih p2 _ _ (by omega)
        · have hsk : p1 ≤ skip data p1 (t &&& 7) := le_skip data p1 _
          exact ih _ _ _ (by omega)
    · simp [kv_entry_loop, hpos]

lemma ParseIOMapEntry_isSome (blob : List Nat) (m : List (List Nat × TensorInfo)) :
    (ParseIOMapEntry blob m).isSome := by
  unfold ParseIOMapEntry
  have hkv := kv_entry_loop_isSome blob (blob.length + 1) 0 [] [] (by omega)
  rcases hk : kv_entry_loop blob 0 [] [] (blob.length + 1) with _ | ⟨key, vb⟩
  · rw [hk] at hkv; simp at hkv
  · simp only
    split
    · have hti := ParseTensorInfo_isSome vb
      rcases hpt : ParseTensorInfo vb with _ | ti
      · rw [hpt] at hti; simp at hti
      · simp
    · simp

lemma sigdef_loop_isSome (data : List Nat) :
    ∀ (fuel pos : Nat) (sig : Signature), data.length - pos < fuel →
    (sigdef_loop data pos sig fuel).isSome := by
  intro fuel
  induction fuel with
  | zero => intro pos sig h; omega
  | succ f ih =>
    intro pos sig h
    by_cases hpos : pos < data.length
    · rcases hrv : read_varint data pos with ⟨t, p1⟩
      have hp1 : pos < p1 := by
        have := lt_read_varint_snd hpos; rw [hrv] at this; exact this
      simp only [sigdef_loop, if_pos hpos, hrv]
      split
      · rcases hrs : read_string data p1 with ⟨blob, p2⟩
        have hp2 : p1 ≤ p2 := by
          have := le_read_string_snd data p1; rw [hrs] at this; exact this
        simp only [hrs]
        split
        · have hio := ParseIOMapEntry_isSome blob sig.inputs
          rcases hpi : ParseIOMapEntry blob sig.inputs with _ | m
          · rw [hpi] at hio; simp at hio
          · simp only [hpi]
            exact ih p2 _ (by omega)
        · have hio := ParseIOMapEntry_isSome blob sig.outputs
          rcases hpi : ParseIOMapEntry blob sig.outputs with _ | m
          · rw [hpi] at hio; simp at hio
          · simp only [hpi]
            exact ih p2 _ (by omega)
      · have hsk : p1 ≤ skip data p1 (t &&& 7) := le_skip data p1 _
        exact ih _ sig (by omega)
    · simp [sigdef_loop, hpos]

lemma ParseSignatureDef_isSome (blob : List Nat) : (ParseSignatureDef blob).isSome :=
  sigdef_loop_isSome blob (blob.length + 1) 0 {} (by omega)

lemma signatures_entry_isSome (acc : List (List Nat × Signature)) (blob : List Nat) :
    (signatures_entry acc blob).isSome := by
  unfold signatures_entry
  have hkv := kv_entry_loop_isSome blob (blob.length + 1) 0 [] [] (by omega)
  rcases hk : kv_entry_loop blob 0 [] [] (blob.length + 1) with _ | ⟨key, vb⟩
  · rw [hk] at hkv; simp at hkv
  · simp only
    split
    · have hsd := ParseSignatureDef_isSome vb
      rcases hps : ParseSignatureDef vb with _ | s
      · rw [hps] at hsd; simp at hsd
      · simp
    · simp

lemma signatures_loop_isSome (data : List Nat) :
    ∀ (fuel pos : Nat) (acc : List (List Nat × Signature)), data.length - pos < fuel →
    (signatures_loop data pos acc fuel).isSome := by
  intro fuel
  induction fuel with
  | zero => intro pos acc h; omega
  | succ f ih =>
    intro pos acc h
    by_cases hpos : pos < data.length
    · rcases hrv : read_varint data pos with ⟨t, p1⟩
      have hp1 : pos < p1 := by
        have := lt_read_varint_snd hpos; rw [hrv] at this; exact this
      simp only [signatures_loop, if_pos hpos, hrv]
      split
      · rcases hrs : read_string data p1 with ⟨blob, p2⟩
        have hp2 : p1 ≤ p2 := by
          have := le_read_string_snd data p1; rw [hrs] at this; exact this
        simp only [hrs]
        have hse := signatures_entry_isSome acc blob
        rcases hpe : signatures_entry acc blob with _ | acc2
        · rw [hpe] at hse; simp at hse
        · simp only [hpe]
          exact ih p2 acc2 (by omega)
      · have hsk : p1 ≤ skip data p1 (t &&& 7) := le_skip data p1 _
        exact ih _ acc (by omega)
    · simp [signatures_loop, hpos]

lemma ParseSignatures_isSome (blob : List Nat) : (ParseSignatures blob).isSome :=
  signatures_loop_isSome blob (blob.length + 1) 0 [] (by omega)

/-! ### Fuel irrelevance and loop-exit lemmas for the outer loop -/

lemma signatures_loop_fuel_irrel (data : List Nat) :
    ∀ (f g pos : Nat) (acc : List (List Nat × Signature)),
    data.length - pos < f → data.length - pos < g →
    signatures_loop data pos acc f = signatures_loop data pos acc g := by
  intro f
  induction f with
  | zero => intro g pos acc h _; omega
  | succ f' ih =>
    intro g pos acc hf hg
    obtain ⟨g', rfl⟩ : ∃ g', g = g' + 1 := ⟨g - 1, by omega⟩
    by_cases hpos : pos < data.length
    · rcases hrv : read_varint data pos with ⟨t, p1⟩
      have hp1 : pos < p1 := by
        have := lt_read_varint_snd hpos; rw [hrv] at this; exact this
      simp only [signatures_loop, if_pos hpos, hrv]
      split
      · rcases hrs : read_string data p1 with ⟨blob, p2⟩
        have hp2 : p1 ≤ p2 := by
          have := le_read_string_snd data p1; rw [hrs] at this; exact this
        simp only [hrs]
        rcases hpe : signatures_entry acc blob with _ | acc2
        · simp
        · simp only
          exact ih g' p2 acc2 (by omega) (by omega)
      · have hsk : p1 ≤ skip data p1 (t &&& 7) := le_skip data p1 _
        exact ih g' _ acc (by omega) (by omega)
    · simp [signatures_loop, hpos]

lemma signatures_loop_term {data : List Nat} {pos : Nat} (h : data.length ≤ pos)
    (acc : List (List Nat × Signature)) (fuel : Nat) :
    signatures_loop data pos acc (fuel + 1) = some acc := by
  simp [signatures_loop, Nat.not_lt.mpr h]

/-! ### Association-list map lemmas -/

lemma mapGet_mapSet_self {α : Type} (m : List (List Nat × α)) (k : List Nat) (v : α) :
    mapGet (mapSet m k v) k = some v := by
  induction m with
  | nil => simp [mapSet, mapGet]
  | cons kv rest ih =>
    obtain ⟨k', v'⟩ := kv
    by_cases h : k' = k
    · simp [mapSet, mapGet, h]
    · simp [mapSet, mapGet, h, ih]

lemma mapGet_mapSet_ne {α : Type} (m : List (List Nat × α)) (k k' : List Nat) (v : α)
    (h : k' ≠ k) : mapGet (mapSet m k v) k' = mapGet m k' := by
  induction m with
  | nil =>
    simp only [mapSet, mapGet]
    rw [if_neg (fun hh => h hh.symm)]
  | cons kv rest ih =>
    obtain ⟨k0, v0⟩ := kv
    by_cases h0 : k0 = k
    · subst h0
      simp [mapSet, mapGet, h, Ne.symm h]
    · by_cases h1 : k0 = k'
      · simp [mapSet, mapGet, h0, h1, h]
      · simp [mapSet, mapGet, h0, h1, ih]

/-! ### One well-formed outer field is consumed exactly -/

lemma wireOf_lt (fv : FieldVal) : wireOf fv < 8 := by
  cases fv <;> simp [wireOf]

lemma signatures_loop_step {data rest : List Nat} {pos : Nat} (n : Nat) (fv : FieldVal)
    (hwf : OuterWF (n, fv)) (hdrop : data.drop pos = encField (n, fv) ++ rest)
    (acc acc2 : List (List Nat × Signature))
    (heff : outer_field_effect acc (n, fv) = some acc2) (fuel : Nat) :
    signatures_loop data pos acc (fuel + 1)
      = signatures_loop data (pos + (encField (n, fv)).length) acc2 fuel := by
  obtain ⟨hn, hfwf, hld⟩ := hwf
  rw [encField_def, List.append_assoc] at hdrop
  have htag : 8 * n + wireOf fv < U64 := tag_lt_U64 hn (wireOf_lt fv)
  have hrv := read_varint_enc htag hdrop
  have hpos : pos < data.length := by
    rcases he : encodeVarint (8 * n + wireOf fv) with _ | ⟨b, bs⟩
    · have := encodeVarint_length_pos (8 * n + wireOf fv)
      rw [he] at this; simp at this
    · rw [he] at hdrop
      exact lt_length_of_drop hdrop
  have hshift : (8 * n + wireOf fv) >>> 3 = n := tag_shift n _ (wireOf_lt fv)
  have hmod : n % U32 = n := Nat.mod_eq_of_lt hn
  have hdrop1 : data.drop (pos + (encodeVarint (8 * n + wireOf fv)).length)
      = encFieldVal fv ++ rest := drop_add_of_drop hdrop
  simp only [signatures_loop, if_pos hpos, hrv, hshift, hmod]
  by_cases h5 : n = 5
  · subst h5
    rcases fv with v | bs | p | bs
    · simp [FieldVal.isLdelim] at hld
    · simp [FieldVal.isLdelim] at hld
    · simp only [FieldVal.wf] at hfwf
      simp only [encFieldVal] at hdrop1
      rw [List.append_assoc] at hdrop1
      have hrs := read_string_enc p rest hfwf hdrop1
      simp only [if_pos rfl, hrs]
      have heq : outer_field_effect acc (5, FieldVal.ldelim p) = signatures_entry acc p := by
        simp [outer_field_effect]
      rw [heq] at heff
      rw [heff]
      have hplen : pos + (encodeVarint (8 * 5 + wireOf (FieldVal.ldelim p))).length
            + (encodeVarint p.length).length + p.length
          = pos + (encField (5, FieldVal.ldelim p)).length := by
        simp [encField_def, encFieldVal]
        omega
      rw [hplen]
      simp
    · simp [FieldVal.isLdelim] at hld
  · have heq : outer_field_effect acc (n, fv) = some acc := by
      simp [outer_field_effect, h5]
    rw [heq] at heff
    obtain rfl : acc = acc2 := by injection heff
    rw [if_neg h5]
    have hand := tag_and7 n (wireOf fv) (wireOf_lt fv)
    rw [hand, skip_enc fv hfwf hdrop1]
    have hplen : pos + (encodeVarint (8 * n + wireOf fv)).length + (encFieldVal fv).length
        = pos + (encField (n, fv)).length := by
      simp [encField_def]
      omega
    rw [hplen]

lemma run_outer_fields_isSome (acc : List (List Nat × Signature))
    (fs : List (Nat × FieldVal)) : (run_outer_fields acc fs).isSome := by
  induction fs generalizing acc with
  | nil => simp [run_outer_fields]
  | cons f fs' ih =>
    obtain ⟨n, fv⟩ := f
    unfold run_outer_fields outer_field_effect
    by_cases h5 : n = 5
    · subst h5
      rcases fv with v | bs | p | bs
      · simp [ih]
      · simp [ih]
      · have hse := signatures_entry_isSome acc p
        rcases hpe : signatures_entry acc p with _ | acc2
        · rw [hpe] at hse; simp at hse
        · simp [hpe, ih]
      · simp [ih]
    · simp [h5, ih]

lemma run_outer_fields_append (acc : List (List Nat × Signature))
    (fs gs : List (Nat × FieldVal)) :
    run_outer_fields acc (fs ++ gs)
      = match run_outer_fields acc fs with
        | none => none
        | some a => run_outer_fields a gs := by
  induction fs generalizing acc with
  | nil => simp [run_outer_fields]
  | cons f fs' ih =>
    simp only [List.cons_append, run_outer_fields]
    rcases heff : outer_field_effect acc f with _ | acc1
    · simp
    · simp [ih]

lemma signatures_loop_fields :
    ∀ (fs : List (Nat × FieldVal)) (data rest : List Nat) (pos : Nat)
      (acc acc2 : List (List Nat × Signature)) (fuel : Nat),
    data.drop pos = encFields fs ++ rest → (∀ f ∈ fs, OuterWF f) →
    run_outer_fields acc fs = some acc2 →
    signatures_loop data pos acc (fs.length + fuel)
      = signatures_loop data (pos + (encFields fs).length) acc2 fuel := by
  intro fs
  induction fs with
  | nil =>
    intro data rest pos acc acc2 fuel hdrop hwf hrun
    simp only [run_outer_fields] at hrun
    obtain rfl : acc = acc2 := by injection hrun
    simp [encFields]
  | cons f fs' ih =>
    intro data rest pos acc acc2 fuel hdrop hwf hrun
    obtain ⟨n, fv⟩ := f
    simp only [encFields] at hdrop
    rw [List.append_assoc] at hdrop
    simp only [run_outer_fields] at hrun
    rcases heff : outer_field_effect acc (n, fv) with _ | acc1
    · rw [heff] at hrun; simp at hrun
    · rw [heff] at hrun
      have hstep := signatures_loop_step n fv (hwf _ (by simp)) hdrop acc acc1 heff
        (fs'.length + fuel)
      simp only [List.length_cons]
      have hsucc : fs'.length + 1 + fuel = (fs'.length + fuel) + 1 := by omega
      rw [hsucc, hstep]
      have hdrop' : data.drop (pos + (encField (n, fv)).length)
          = encFields fs' ++ rest := drop_add_of_drop hdrop
      rw [ih data rest _ acc1 acc2 fuel hdrop' (fun g hg => hwf g (by simp [hg])) hrun]
      have : pos + (encField (n, fv)).length + (encFields fs').length
          = pos + (encFields ((n, fv) :: fs')).length := by
        simp [encFields]
        omega
      rw [this]

lemma ParseSignatures_encFields (fs : List (Nat × FieldVal)) (hwf : ∀ f ∈ fs, OuterWF f)
    (acc2 : List (List Nat × Signature)) (hrun : run_outer_fields [] fs = some acc2) :
    ParseSignatures (encFields fs) = some acc2 := by
  unfold ParseSignatures
  have hge := length_le_encFields fs
  have hsplitfuel : (encFields fs).length + 1
      = fs.length + ((encFields fs).length + 1 - fs.length) := by omega
  rw [hsplitfuel,
    signatures_loop_fields fs (encFields fs) [] 0 [] acc2 _ (by simp) hwf hrun]
  obtain ⟨f', hf'⟩ : ∃ f', (encFields fs).length + 1 - fs.length = f' + 1 :=
    ⟨(encFields fs).length - fs.length, by omega⟩
  rw [hf', signatures_loop_term (by simp)]

/-! ### The shared key/value entry loop on canonically encoded entries -/

lemma pos_lt_of_drop_encodeVarint {data rest : List Nat} {pos v : Nat}
    (hdrop : data.drop pos = encodeVarint v ++ rest) : pos < data.length := by
  have h := congrArg List.length hdrop
  simp at h
  have := encodeVarint_length_pos v
  omega

lemma encField_ldelim_length (n : Nat) (p : List Nat) :
    (encField (n, .ldelim p)).length
      = (encodeVarint (8 * n + 2)).length + ((encodeVarint p.length).length + p.length) := by
  simp [encField_def, encFieldVal, wireOf]

lemma kv_entry_loop_term {data : List Nat} {pos : Nat} (h : data.length ≤ pos)
    (key vb : List Nat) (fuel : Nat) :
    kv_entry_loop data pos key vb (fuel + 1) = some (key, vb) := by
  simp [kv_entry_loop, Nat.not_lt.mpr h]

lemma kv_entry_loop_step {data rest : List Nat} {pos : Nat} (n : Nat) (p : List Nat)
    (hn : n < U32) (hp : p.length < U64)
    (hdrop : data.drop pos = encField (n, .ldelim p) ++ rest)
    (key vb : List Nat) (fuel : Nat) :
    kv_entry_loop data pos key vb (fuel + 1)
      = kv_entry_loop data (pos + (encField (n, .ldelim p)).length)
          (if n = 1 then p else key) (if n = 2 then p else vb) fuel := by
  rw [encField_def, List.append_assoc] at hdrop
  simp only [wireOf] at hdrop
  have htag : 8 * n + 2 < U64 := tag_lt_U64 hn (by norm_num)
  have hrv := read_varint_enc htag hdrop
  have hpos : pos < data.length := pos_lt_of_drop_encodeVarint hdrop
  have hshift : (8 * n + 2) >>> 3 = n := tag_shift n 2 (by norm_num)
  have hmod : n % U32 = n := Nat.mod_eq_of_lt hn
  have hdrop1 : data.drop (pos + (encodeVarint (8 * n + 2)).length)
      = encodeVarint p.length ++ (p ++ rest) := by
    have := drop_add_of_drop hdrop
    simpa only [encFieldVal, List.append_assoc] using this
  have hrs := read_string_enc p rest hp hdrop1
  have hplen : pos + (encodeVarint (8 * n + 2)).length
        + (encodeVarint p.length).length + p.length
      = pos + (encField (n, .ldelim p)).length := by
    rw [encField_ldelim_length]
    omega
  simp only [kv_entry_loop, if_pos hpos, hrv, hshift, hmod]
  by_cases h1 : n = 1
  · subst h1
    simp only [if_pos rfl, hrs, hplen]
    norm_num
  · by_cases h2 : n = 2
    · subst h2
      simp only [if_neg h1, if_pos rfl, hrs, hplen]
      simp
    · have hand := tag_and7 n 2 (by norm_num)
      have hsk : skip data (pos + (encodeVarint (8 * n + 2)).length) 2
          = pos + (encField (n, .ldelim p)).length := by
        have := skip_enc (FieldVal.ldelim p) (by simpa [FieldVal.wf] using hp)
          (by simpa only [encFieldVal, List.append_assoc] using hdrop1)
        simp only [wireOf] at this
        rw [this, encField_ldelim_length]
        simp [encFieldVal]
        omega
      simp only [if_neg h1, if_neg h2, hand, hsk]

lemma entryEnc_length (k vb : List Nat) :
    (entryEnc k vb).length
      = (encField (1, .ldelim k)).length + (encField (2, .ldelim vb)).length := by
  simp [entryEnc]

lemma kv_entry_loop_entryEnc {data rest : List Nat} {pos : Nat} (k vb : List Nat)
    (hk : k.length < U64) (hvb : vb.length < U64)
    (hdrop : data.drop pos = entryEnc k vb ++ rest) (key0 vb0 : List Nat) (fuel : Nat) :
    kv_entry_loop data pos key0 vb0 (fuel + 2)
      = kv_entry_loop data (pos + (entryEnc k vb).length) k vb fuel := by
  unfold entryEnc at hdrop
  rw [List.append_assoc] at hdrop
  have h1U : (1 : Nat) < U32 := by rw [U32_eq]; norm_num
  have h2U : (2 : Nat) < U32 := by rw [U32_eq]; norm_num
  have hstep1 := kv_entry_loop_step 1 k h1U hk hdrop key0 vb0 (fuel + 1)
  norm_num at hstep1
  rw [show fuel + 2 = (fuel + 1) + 1 from rfl, hstep1]
  have hdrop2 : data.drop (pos + (encField (1, .ldelim k)).length)
      = encField (2, .ldelim vb) ++ rest := drop_add_of_drop hdrop
  have hstep2 := kv_entry_loop_step 2 vb h2U hvb hdrop2 k vb0 fuel
  norm_num at hstep2
  rw [hstep2]
  have hpp : pos + (encField (1, FieldVal.ldelim k)).length
        + (encField (2, FieldVal.ldelim vb)).length
      = pos + (entryEnc k vb).length := by
    rw [entryEnc_length]; omega
  rw [hpp]

lemma kv_entry_entryEnc (k vb : List Nat) (hk : k.length < U64) (hvb : vb.length < U64) :
    kv_entry_loop (entryEnc k vb) 0 [] [] ((entryEnc k vb).length + 1) = some (k, vb) := by
  have hge1 := encField_length_pos (1, FieldVal.ldelim k)
  have hge2 := encField_length_pos (2, FieldVal.ldelim vb)
  have hL : 2 ≤ (entryEnc k vb).length := by
    rw [entryEnc_length]; omega
  obtain ⟨f', hf'⟩ : ∃ f', (entryEnc k vb).length + 1 = f' + 1 + 2 :=
    ⟨(entryEnc k vb).length - 2, by omega⟩
  rw [hf',
    @kv_entry_loop_entryEnc (entryEnc k vb) [] 0 k vb hk hvb (by simp) [] [] (f' + 1),
    kv_entry_loop_term (by simp)]

lemma signatures_entry_entryEnc (acc : List (List Nat × Signature)) (k vb : List Nat)
    (hk : k.length < U64) (hvb : vb.length < U64) :
    signatures_entry acc (entryEnc k vb)
      = if k ≠ [] ∧ vb ≠ [] then
          (match ParseSignatureDef vb with
           | none => none
           | some s => some (mapSet acc k { s with key := k }))
        else some acc := by
  unfold signatures_entry
  rw [kv_entry_entryEnc k vb hk hvb]

lemma ParseIOMapEntry_entryEnc (m : List (List Nat × TensorInfo)) (k vb : List Nat)
    (hk : k.length < U64) (hvb : vb.length < U64) :
    ParseIOMapEntry (entryEnc k vb) m
      = if k ≠ [] ∧ vb ≠ [] then
          (match ParseTensorInfo vb with
           | none => none
           | some ti => some (mapSet m k ti))
        else some m := by
  unfold ParseIOMapEntry
  rw [kv_entry_entryEnc k vb hk hvb]

/-! ### One step of the `ParseSignatureDef` loop on an encoded field -/

lemma sigdef_loop_term {data : List Nat} {pos : Nat} (h : data.length ≤ pos)
    (sig : Signature) (fuel : Nat) :
    sigdef_loop data pos sig (fuel + 1) = some sig := by
  simp [sigdef_loop, Nat.not_lt.mpr h]

lemma sigdef_loop_step_one {data rest : List Nat} {pos : Nat} (p : List Nat)
    (hp : p.length < U64) (hdrop : data.drop pos = encField (1, .ldelim p) ++ rest)
    (sig : Signature) (m : List (List Nat × TensorInfo))
    (hm : ParseIOMapEntry p sig.inputs = some m) (fuel : Nat) :
    sigdef_loop data pos sig (fuel + 1)
      = sigdef_loop data (pos + (encField (1, .ldelim p)).length)
          { sig with inputs := m } fuel := by
  rw [encField_def, List.append_assoc] at hdrop
  simp only [wireOf] at hdrop
  have htag : 8 * 1 + 2 < U64 := by rw [U64_eq]; norm_num
  have hrv := read_varint_enc htag hdrop
  have hpos : pos < data.length := pos_lt_of_drop_encodeVarint hdrop
  have hshift : (8 * 1 + 2) >>> 3 = 1 := tag_shift 1 2 (by norm_num)
  have hmod : (1 : Nat) % U32 = 1 := Nat.mod_eq_of_lt (by rw [U32_eq]; norm_num)
  have hdrop1 : data.drop (pos + (encodeVarint (8 * 1 + 2)).length)
      = encodeVarint p.length ++ (p ++ rest) := by
    have := drop_add_of_drop hdrop
    simpa only [encFieldVal, List.append_assoc] using this
  have hrs := read_string_enc p rest hp hdrop1
  have hplen : pos + (encodeVarint (8 * 1 + 2)).length
        + (encodeVarint p.length).length + p.length
      = pos + (encField (1, .ldelim p)).length := by
    rw [encField_ldelim_length]
    omega
  simp only [sigdef_loop, if_pos hpos, hrv, hshift, hmod]
  norm_num
  rw [hrs]
  simp only [hm, hplen]

lemma sigdef_loop_step_two {data rest : List Nat} {pos : Nat} (p : List Nat)
    (hp : p.length < U64) (hdrop : data.drop pos = encField (2, .ldelim p) ++ rest)
    (sig : Signature) (m : List (List Nat × TensorInfo))
    (hm : ParseIOMapEntry p sig.outputs = some m) (fuel : Nat) :
    sigdef_loop data pos sig (fuel + 1)
      = sigdef_loop data (pos + (encField (2, .ldelim p)).length)
          { sig with outputs := m } fuel := by
  rw [encField_def, List.append_assoc] at hdrop
  simp only [wireOf] at hdrop
  have htag : 8 * 2 + 2 < U64 := by rw [U64_eq]; norm_num
  have hrv := read_varint_enc htag hdrop
  have hpos : pos < data.length := pos_lt_of_drop_encodeVarint hdrop
  have hshift : (8 * 2 + 2) >>> 3 = 2 := tag_shift 2 2 (by norm_num)
  have hmod : (2 : Nat) % U32 = 2 := Nat.mod_eq_of_lt (by rw [U32_eq]; norm_num)
  have hdrop1 : data.drop (pos + (encodeVarint (8 * 2 + 2)).length)
      = encodeVarint p.length ++ (p ++ rest) := by
    have := drop_add_of_drop hdrop
    simpa only [encFieldVal, List.append_assoc] using this
  have hrs := read_string_enc p rest hp hdrop1
  have hplen : pos + (encodeVarint (8 * 2 + 2)).length
        + (encodeVarint p.length).length + p.length
      = pos + (encField (2, .ldelim p)).length := by
    rw [encField_ldelim_length]
    omega
  simp only [sigdef_loop, if_pos hpos, hrv, hshift, hmod]
  norm_num
  rw [hrs]
  simp only [hm, hplen]

/-! ## Claim theorems -/

/-- C1: for every input byte buffer, `ParseSignatures` and the helpers
`ParseSignatureDef`, `ParseIOMapEntry`, `ParseTensorInfo`, `ParseTensorShape`
are total: with their fuel of `blob.length + 1` the fuel-exhaustion branch is
never reached, so every call returns a result (`isSome`), never an error,
also on malformed or truncated input. -/
theorem parse_signatures_total (blob : List Nat) (m : List (List Nat × TensorInfo)) :
    (ParseSignatures blob).isSome ∧ (ParseSignatureDef blob).isSome ∧
    (ParseIOMapEntry blob m).isSome ∧ (ParseTensorInfo blob).isSome ∧
    (ParseTensorShape blob).isSome :=
  ⟨ParseSignatures_isSome blob, ParseSignatureDef_isSome blob,
   ParseIOMapEntry_isSome blob m, ParseTensorInfo_isSome blob,
   ParseTensorShape_isSome blob⟩

/-- C2 counterexample: the claimed invariant `position ≤ end bound` is not
preserved by every operation: starting from the empty buffer with
`pos = 0 ≤ 0 = end`, `skip` with wire type 5 moves the cursor to 4, past the
end bound (pb_helper.h:76 adds 4 with no bounds check). -/
theorem cursor_invariant_skip_cex :
    ¬ (skip ([] : List Nat) 0 5 ≤ ([] : List Nat).length) := by decide

/-- C2 (amended): for every cursor with `pos ≤ end`, the read operations
`read_varint`, `read_bytes`, `read_string` are bounds-checked and preserve
`pos ≤ end`, and so does `skip` for wire type 0, while `skip` leaves the
cursor unchanged for wire types outside {0, 1, 2, 5}; only the unchecked
`skip` branches for wire types 1, 2, 5 may move the position past the end
bound (without reading any byte). -/
theorem reader_ops_preserve_end_bound (data : List Nat) (pos : Nat)
    (h : pos ≤ data.length) :
    (read_varint data pos).2 ≤ data.length ∧
    (∀ len, (read_bytes data pos len).2 ≤ data.length) ∧
    (read_string data pos).2 ≤ data.length ∧
    skip data pos 0 ≤ data.length ∧
    (∀ wt, wt ≠ 0 → wt ≠ 1 → wt ≠ 2 → wt ≠ 5 → skip data pos wt = pos) := by
  refine ⟨read_varint_snd_le h, fun len => read_bytes_snd_le len h,
    read_string_snd_le h, ?_, fun wt h0 h1 h2 h5 => skip_other_def data pos wt h0 h1 h2 h5⟩
  rw [skip_zero_def]
  exact read_varint_snd_le h

theorem reader_ops_preserve_end_bound_witness :
    (0 ≤ ([0] : List Nat).length) ∧
    ((read_varint [0] 0).2 ≤ ([0] : List Nat).length ∧
     (∀ len, (read_bytes [0] 0 len).2 ≤ ([0] : List Nat).length) ∧
     (read_string [0] 0).2 ≤ ([0] : List Nat).length ∧
     skip [0] 0 0 ≤ ([0] : List Nat).length ∧
     (∀ wt, wt ≠ 0 → wt ≠ 1 → wt ≠ 2 → wt ≠ 5 → skip [0] 0 wt = 0)) :=
  ⟨by decide, reader_ops_preserve_end_bound [0] 0 (by decide)⟩

lemma varint_roundtrip (v : Nat) (hv : v < U64) :
    read_varint (encodeVarint v) 0 = (v, (encodeVarint v).length) := by
  have h := @read_varint_enc (encodeVarint v) [] 0 v hv (by simp)
  simpa using h

/-- C4: for every value in {0, 1, 127, 128, 16384, 2^35, 2^63 - 1}, encoding
it as a base-128 varint (7 payload bits per byte, high bit = continuation)
and decoding with `read_varint` returns exactly that value, consuming the
whole encoding. -/
theorem varint_roundtrip_values :
    read_varint (encodeVarint 0) 0 = (0, (encodeVarint 0).length) ∧
    read_varint (encodeVarint 1) 0 = (1, (encodeVarint 1).length) ∧
    read_varint (encodeVarint 127) 0 = (127, (encodeVarint 127).length) ∧
    read_varint (encodeVarint 128) 0 = (128, (encodeVarint 128).length) ∧
    read_varint (encodeVarint 16384) 0 = (16384, (encodeVarint 16384).length) ∧
    read_varint (encodeVarint (2 ^ 35)) 0 = (2 ^ 35, (encodeVarint (2 ^ 35)).length) ∧
    read_varint (encodeVarint (2 ^ 63 - 1)) 0
      = (2 ^ 63 - 1, (encodeVarint (2 ^ 63 - 1)).length) := by
  refine ⟨?_, ?_, ?_, ?_, ?_, ?_, ?_⟩ <;>
    exact varint_roundtrip _ (by norm_num [U64])

/-- C5: for each of the four supported wire types (0 = varint, 1 = 64-bit,
2 = length-delimited, 5 = 32-bit), `skip` on a well-formed field value lands
exactly at the start of the following field, so a subsequent read (of field
B) behaves exactly as after decoding the value normally and discarding
it. -/
theorem skip_consumes_exactly_one_field (fv : FieldVal) (data rest : List Nat)
    (pos : Nat) (hwf : fv.wf) (hdrop : data.drop pos = encFieldVal fv ++ rest) :
    (wireOf fv = 0 ∨ wireOf fv = 1 ∨ wireOf fv = 2 ∨ wireOf fv = 5) ∧
    skip data pos (wireOf fv) = pos + (encFieldVal fv).length ∧
    read_varint data (skip data pos (wireOf fv))
      = read_varint data (pos + (encFieldVal fv).length) := by
  have h := skip_enc fv hwf hdrop
  exact ⟨by cases fv <;> simp [wireOf], h, by rw [h]⟩

theorem skip_consumes_exactly_one_field_witness :
    (FieldVal.fixed32 [9, 9, 9, 9]).wf ∧
    ((wireOf (FieldVal.fixed32 [9, 9, 9, 9]) = 0 ∨
      wireOf (FieldVal.fixed32 [9, 9, 9, 9]) = 1 ∨
      wireOf (FieldVal.fixed32 [9, 9, 9, 9]) = 2 ∨
      wireOf (FieldVal.fixed32 [9, 9, 9, 9]) = 5) ∧
     skip [9, 9, 9, 9, 7] 0 (wireOf (FieldVal.fixed32 [9, 9, 9, 9]))
       = 0 + (encFieldVal (FieldVal.fixed32 [9, 9, 9, 9])).length ∧
     read_varint [9, 9, 9, 9, 7] (skip [9, 9, 9, 9, 7] 0 (wireOf (FieldVal.fixed32 [9, 9, 9, 9])))
       = read_varint [9, 9, 9, 9, 7] (0 + (encFieldVal (FieldVal.fixed32 [9, 9, 9, 9])).length)) :=
  ⟨by decide,
   skip_consumes_exactly_one_field (FieldVal.fixed32 [9, 9, 9, 9]) [9, 9, 9, 9, 7] [7] 0
     (by decide) (by decide)⟩

/-- C7: a map entry whose decoded key is empty or whose decoded value payload
is empty contributes nothing to the target map, at both map levels
(pb_helper.h:152-154 and pb_helper.h:201-204); and every entry that is
inserted by `ParseIOMapEntry` comes from a non-empty key and a non-empty
value payload, so no empty-payload value ever appears in a decoded map. -/
theorem empty_key_or_value_entry_dropped (blob : List Nat)
    (m : List (List Nat × TensorInfo)) (k vb : List Nat)
    (hkv : kv_entry_loop blob 0 [] [] (blob.length + 1) = some (k, vb))
    (hemp : k = [] ∨ vb = []) :
    ParseIOMapEntry blob m = some m ∧
    (∀ acc : List (List Nat × Signature), signatures_entry acc blob = some acc) ∧
    (∀ (blob2 : List Nat) (m2 r : List (List Nat × TensorInfo)),
      ParseIOMapEntry blob2 m2 = some r →
      r = m2 ∨ ∃ k2 vb2 ti, kv_entry_loop blob2 0 [] [] (blob2.length + 1) = some (k2, vb2) ∧
        k2 ≠ [] ∧ vb2 ≠ [] ∧ ParseTensorInfo vb2 = some ti ∧ r = mapSet m2 k2 ti) := by
  have hne : ¬(k ≠ [] ∧ vb ≠ []) := by tauto
  refine ⟨?_, ?_, ?_⟩
  · unfold ParseIOMapEntry
    simp only [hkv]
    rw [if_neg hne]
  · intro acc
    unfold signatures_entry
    simp only [hkv]
    rw [if_neg hne]
  · intro blob2 m2 r hr
    unfold ParseIOMapEntry at hr
    have hkv2 := kv_entry_loop_isSome blob2 (blob2.length + 1) 0 [] [] (by omega)
    rcases hk2 : kv_entry_loop blob2 0 [] [] (blob2.length + 1) with _ | ⟨k2, vb2⟩
    · rw [hk2] at hkv2; simp at hkv2
    · rw [hk2] at hr
      simp only at hr
      by_cases hcond : k2 ≠ [] ∧ vb2 ≠ []
      · rw [if_pos hcond] at hr
        have hti := ParseTensorInfo_isSome vb2
        rcases hpt : ParseTensorInfo vb2 with _ | ti
        · rw [hpt] at hti; simp at hti
        · rw [hpt] at hr
          right
          exact ⟨k2, vb2, ti, rfl, hcond.1, hcond.2, hpt, (Option.some.inj hr).symm⟩
      · rw [if_neg hcond] at hr
        exact Or.inl (Option.some.inj hr).symm

theorem empty_key_or_value_entry_dropped_witness :
    kv_entry_loop [] 0 [] [] 1 = some ([], []) ∧
    (ParseIOMapEntry [] [] = some [] ∧
     (∀ acc : List (List Nat × Signature), signatures_entry acc [] = some acc) ∧
     (∀ (blob2 : List Nat) (m2 r : List (List Nat × TensorInfo)),
       ParseIOMapEntry blob2 m2 = some r →
       r = m2 ∨ ∃ k2 vb2 ti, kv_entry_loop blob2 0 [] [] (blob2.length + 1) = some (k2, vb2) ∧
         k2 ≠ [] ∧ vb2 ≠ [] ∧ ParseTensorInfo vb2 = some ti ∧ r = mapSet m2 k2 ti)) :=
  ⟨by decide, empty_key_or_value_entry_dropped [] [] [] [] (by decide) (Or.inl rfl)⟩

/-- C8: when a length-delimited read requests more bytes than remain before
the end bound, `read_bytes` (and hence `read_string`, whose varint length
exceeds the remainder) returns the empty byte sequence without advancing
past the length, treating the truncated field as absent. -/
theorem truncated_length_delimited_read_empty (data : List Nat) (pos len : Nat)
    (hb : data.length < pos + len)
    (hs : data.length < (read_varint data pos).2 + (read_varint data pos).1) :
    read_bytes data pos len = ([], pos) ∧
    read_string data pos = ([], (read_varint data pos).2) := by
  constructor
  · unfold read_bytes
    rw [if_pos (by omega)]
  · rw [read_string_def]
    unfold read_bytes
    rw [if_pos (by omega)]

theorem truncated_length_delimited_read_empty_witness :
    (([5] : List Nat).length < 0 + 2 ∧
     ([5] : List Nat).length < (read_varint [5] 0).2 + (read_varint [5] 0).1) ∧
    (read_bytes [5] 0 2 = ([], 0) ∧ read_string [5] 0 = ([], (read_varint [5] 0).2)) :=
  ⟨by decide, truncated_length_delimited_read_empty [5] 0 2 (by decide) (by decide)⟩

/-- C9: `ParseSignatures` terminates after a single linear forward scan: any
fuel exceeding the buffer length yields the same (defined) result, because
every loop iteration first reads the tag varint, which strictly consumes at
least one byte.  The fixed nesting depth is structural: each message level
is a separate, statically nested definition. -/
theorem parse_signatures_linear_fuel (blob : List Nat) (fuel : Nat)
    (hfuel : blob.length < fuel) :
    signatures_loop blob 0 [] fuel = ParseSignatures blob ∧
    (ParseSignatures blob).isSome ∧
    (∀ pos, pos < blob.length → pos + 1 ≤ (read_varint blob pos).2) := by
  refine ⟨?_, ParseSignatures_isSome blob, fun pos h => lt_read_varint_snd h⟩
  unfold ParseSignatures
  exact signatures_loop_fuel_irrel blob fuel (blob.length + 1) 0 [] (by omega) (by omega)

lemma read_varint_at_end {data : List Nat} {pos : Nat} (h : data.length ≤ pos) :
    read_varint data pos = (0, pos) := by
  unfold read_varint
  rw [Nat.sub_eq_zero_of_le h]
  rfl

lemma signatures_entry_nil (acc : List (List Nat × Signature)) :
    signatures_entry acc [] = some acc := rfl

lemma U32_lt_U64 : U32 < U64 := by rw [U32_eq, U64_eq]; norm_num

lemma entryEnc_length_lt {k vb : List Nat} (hk : k.length < U32) (hvb : vb.length < U32) :
    (entryEnc k vb).length < U64 := by
  rw [entryEnc_length, encField_ldelim_length 1 k, encField_ldelim_length 2 vb]
  have l2 := encodeVarint_length_le k.length
  have l4 := encodeVarint_length_le vb.length
  have l1 := encodeVarint_length_le (8 * 1 + 2)
  have l3 := encodeVarint_length_le (8 * 2 + 2)
  rw [U32_eq] at hk hvb
  rw [U64_eq]
  omega

/-- C6: when the wire input contains two map entries with the same non-empty
key and different non-empty value payloads, the decoded map binds the key to
the later entry's value — at the signature-table level (two field-5 entries
of the outer message) and at the inputs-map level (two field-1 entries of a
`SignatureDef`). -/
theorem duplicate_key_later_wins (k vb1 vb2 : List Nat) (hk : k ≠ []) (h1 : vb1 ≠ [])
    (h2 : vb2 ≠ []) (hkl : k.length < U32) (hv1l : vb1.length < U32)
    (hv2l : vb2.length < U32) :
    (∃ s2 tbl, ParseSignatureDef vb2 = some s2 ∧
       ParseSignatures
           (encFields [(5, .ldelim (entryEnc k vb1)), (5, .ldelim (entryEnc k vb2))])
         = some tbl ∧
       mapGet tbl k = some { s2 with key := k }) ∧
    (∃ ti2 s, ParseTensorInfo vb2 = some ti2 ∧
       ParseSignatureDef
           (encField (1, .ldelim (entryEnc k vb1)) ++ encField (1, .ldelim (entryEnc k vb2)))
         = some s ∧
       mapGet s.inputs k = some ti2) := by
  have hkU : k.length < U64 := lt_trans hkl U32_lt_U64
  have hv1U : vb1.length < U64 := lt_trans hv1l U32_lt_U64
  have hv2U : vb2.length < U64 := lt_trans hv2l U32_lt_U64
  have he1len : (entryEnc k vb1).length < U64 := entryEnc_length_lt hkl hv1l
  have he2len : (entryEnc k vb2).length < U64 := entryEnc_length_lt hkl hv2l
  constructor
  · -- signature-table level
    have hsd1 := ParseSignatureDef_isSome vb1
    rcases hs1 : ParseSignatureDef vb1 with _ | s1
    · rw [hs1] at hsd1; simp at hsd1
    have hsd2 := ParseSignatureDef_isSome vb2
    rcases hs2 : ParseSignatureDef vb2 with _ | s2
    · rw [hs2] at hsd2; simp at hsd2
    have hse1 : signatures_entry [] (entryEnc k vb1)
        = some (mapSet [] k { s1 with key := k }) := by
      rw [signatures_entry_entryEnc [] k vb1 hkU hv1U, if_pos ⟨hk, h1⟩, hs1]
    have hse2 : signatures_entry (mapSet [] k { s1 with key := k }) (entryEnc k vb2)
        = some (mapSet (mapSet [] k { s1 with key := k }) k { s2 with key := k }) := by
      rw [signatures_entry_entryEnc _ k vb2 hkU hv2U, if_pos ⟨hk, h2⟩, hs2]
    have hrun : run_outer_fields []
          [(5, .ldelim (entryEnc k vb1)), (5, .ldelim (entryEnc k vb2))]
        = some (mapSet (mapSet [] k { s1 with key := k }) k { s2 with key := k }) := by
      simp [run_outer_fields, outer_field_effect, hse1, hse2]
    have hwf : ∀ f ∈ [((5 : Nat), FieldVal.ldelim (entryEnc k vb1)),
        ((5 : Nat), FieldVal.ldelim (entryEnc k vb2))], OuterWF f := by
      intro f hf
      simp only [List.mem_cons, List.mem_singleton, List.not_mem_nil, or_false] at hf
      rcases hf with rfl | rfl
      · exact ⟨by rw [U32_eq]; norm_num, he1len, fun _ => rfl⟩
      · exact ⟨by rw [U32_eq]; norm_num, he2len, fun _ => rfl⟩
    have hps := ParseSignatures_encFields _ hwf _ hrun
    exact ⟨s2, _, rfl, hps, mapGet_mapSet_self _ k _⟩
  · -- inputs-map level
    have hti1 := ParseTensorInfo_isSome vb1
    rcases ht1 : ParseTensorInfo vb1 with _ | ti1
    · rw [ht1] at hti1; simp at hti1
    have hti2 := ParseTensorInfo_isSome vb2
    rcases ht2 : ParseTensorInfo vb2 with _ | ti2
    · rw [ht2] at hti2; simp at hti2
    have hio1 : ParseIOMapEntry (entryEnc k vb1) ([] : List (List Nat × TensorInfo))
        = some (mapSet [] k ti1) := by
      rw [ParseIOMapEntry_entryEnc [] k vb1 hkU hv1U, if_pos ⟨hk, h1⟩, ht1]
    have hio2 : ParseIOMapEntry (entryEnc k vb2) (mapSet [] k ti1)
        = some (mapSet (mapSet [] k ti1) k ti2) := by
      rw [ParseIOMapEntry_entryEnc _ k vb2 hkU hv2U, if_pos ⟨hk, h2⟩, ht2]
    have e1p := encField_length_pos (1, FieldVal.ldelim (entryEnc k vb1))
    have e2p := encField_length_pos (1, FieldVal.ldelim (entryEnc k vb2))
    have hLlen : (encField (1, FieldVal.ldelim (entryEnc k vb1))
          ++ encField (1, FieldVal.ldelim (entryEnc k vb2))).length
        = (encField (1, FieldVal.ldelim (entryEnc k vb1))).length
          + (encField (1, FieldVal.ldelim (entryEnc k vb2))).length := by simp
    have hdrop1 : (encField (1, FieldVal.ldelim (entryEnc k vb1))
          ++ encField (1, FieldVal.ldelim (entryEnc k vb2))).drop 0
        = encField (1, .ldelim (entryEnc k vb1))
          ++ encField (1, .ldelim (entryEnc k vb2)) := by simp
    have hdrop2 : (encField (1, FieldVal.ldelim (entryEnc k vb1))
          ++ encField (1, FieldVal.ldelim (entryEnc k vb2))).drop
            (0 + (encField (1, FieldVal.ldelim (entryEnc k vb1))).length)
        = encField (1, .ldelim (entryEnc k vb2)) ++ [] := by
      simp [List.drop_left]
    unfold ParseSignatureDef
    obtain ⟨f2, hf2⟩ : ∃ f2, (encField (1, FieldVal.ldelim (entryEnc k vb1))
          ++ encField (1, FieldVal.ldelim (entryEnc k vb2))).length + 1
        = (f2 + 1 + 1) + 1 := ⟨(encField (1, FieldVal.ldelim (entryEnc k vb1))
          ++ encField (1, FieldVal.ldelim (entryEnc k vb2))).length - 2, by omega⟩
    rw [hf2]
    rw [sigdef_loop_step_one (entryEnc k vb1) he1len hdrop1 {} (mapSet [] k ti1) hio1
      (f2 + 1 + 1)]
    rw [sigdef_loop_step_one (entryEnc k vb2) he2len hdrop2 _ (mapSet (mapSet [] k ti1) k ti2)
      hio2 (f2 + 1)]
    rw [sigdef_loop_term (by omega) _ f2]
    exact ⟨ti2, _, rfl, rfl, mapGet_mapSet_self _ k _⟩

theorem duplicate_key_later_wins_witness :
    (([97] : List Nat) ≠ [] ∧ ([1] : List Nat) ≠ [] ∧ ([2] : List Nat) ≠ [] ∧
     ([97] : List Nat).length < U32 ∧ ([1] : List Nat).length < U32 ∧
     ([2] : List Nat).length < U32) ∧
    ((∃ s2 tbl, ParseSignatureDef [2] = some s2 ∧
        ParseSignatures
            (encFields [(5, .ldelim (entryEnc [97] [1])), (5, .ldelim (entryEnc [97] [2]))])
          = some tbl ∧
        mapGet tbl [97] = some { s2 with key := [97] }) ∧
     (∃ ti2 s, ParseTensorInfo [2] = some ti2 ∧
        ParseSignatureDef
            (encField (1, .ldelim (entryEnc [97] [1])) ++ encField (1, .ldelim (entryEnc [97] [2])))
          = some s ∧
        mapGet s.inputs [97] = some ti2)) :=
  ⟨⟨by decide, by decide, by decide, by decide, by decide, by decide⟩,
   duplicate_key_later_wins [97] [1] [2] (by decide) (by decide) (by decide)
     (by decide) (by decide) (by decide)⟩

theorem parse_signatures_linear_fuel_witness :
    ([0] : List Nat).length < 2 ∧
    (signatures_loop [0] 0 [] 2 = ParseSignatures [0] ∧
     (ParseSignatures [0]).isSome ∧
     (∀ pos, pos < ([0] : List Nat).length → pos + 1 ≤ (read_varint [0] pos).2)) :=
  ⟨by decide, parse_signatures_linear_fuel [0] 2 (by decide)⟩

/-! ### Scanning the tail left by a truncated final length-delimited field

When the final field's last byte is removed, the `field == 5` handler's
`read_bytes` overruns and yields the empty entry (which contributes nothing),
after which the outer loop keeps scanning inside the truncated payload; for a
payload that is a canonical two-field map entry, those bytes are skipped
without adding anything and the scan falls off the end of the buffer.  For a
final field with any other number, `skip` jumps straight past the end. -/

lemma signatures_loop_skip2_off_end (data : List Nat) (p t L p1 p2 : Nat)
    (acc : List (List Nat × Signature)) (fuel : Nat)
    (hpos : p < data.length)
    (hrv : read_varint data p = (t, p1))
    (hne5 : (t >>> 3) % U32 ≠ 5)
    (hw : t &&& 7 = 2)
    (hrv2 : read_varint data p1 = (L, p2))
    (hoff : data.length ≤ p2 + L) :
    signatures_loop data p acc (fuel + 2) = some acc := by
  show signatures_loop data p acc ((fuel + 1) + 1) = some acc
  generalize hg : fuel + 1 = g
  simp only [signatures_loop, if_pos hpos, hrv]
  rw [if_neg hne5, hw, skip_two_def, hrv2, ← hg]
  exact signatures_loop_term hoff acc fuel

lemma signatures_loop_five_empty (data : List Nat) (p t p1 p2 : Nat)
    (acc : List (List Nat × Signature)) (fuel : Nat)
    (hpos : p < data.length)
    (hrv : read_varint data p = (t, p1))
    (h5 : (t >>> 3) % U32 = 5)
    (hrs : read_string data p1 = ([], p2)) :
    signatures_loop data p acc (fuel + 1) = signatures_loop data p2 acc fuel := by
  simp only [signatures_loop, if_pos hpos, hrv, h5, if_true]
  rw [hrs]
  simp only [signatures_entry_nil]

lemma signatures_loop_trunc_tail (data : List Nat) (pos : Nat) (n : Nat) (q k vb : List Nat)
    (hn : n < U32) (hqne : q ≠ []) (hql : q.length < U64)
    (hq5 : n = 5 → q = entryEnc k vb) (hkl : k.length < U64) (hvbl : vb.length < U64)
    (hdrop : data.drop pos = encodeVarint (8 * n + 2) ++ (encodeVarint q.length ++ q.dropLast))
    (acc : List (List Nat × Signature)) (fuel : Nat) (hfuel : data.length - pos < fuel) :
    signatures_loop data pos acc fuel = some acc := by
  have htag : 8 * n + 2 < U64 := tag_lt_U64 hn (by norm_num)
  have hrv := read_varint_enc htag hdrop
  have hpos : pos < data.length := pos_lt_of_drop_encodeVarint hdrop
  have hdrop1 : data.drop (pos + (encodeVarint (8 * n + 2)).length)
      = encodeVarint q.length ++ q.dropLast := drop_add_of_drop hdrop
  have hrv2 := read_varint_enc hql hdrop1
  have hq1 : 1 ≤ q.length := List.length_pos.mpr hqne
  have hp1pos : pos + (encodeVarint (8 * n + 2)).length < data.length :=
    pos_lt_of_drop_encodeVarint hdrop1
  have hlen1 := congrArg List.length hdrop1
  simp at hlen1
  have henc1 := encodeVarint_length_pos (8 * n + 2)
  have henc2 := encodeVarint_length_pos q.length
  have hshift : (8 * n + 2) >>> 3 = n := tag_shift n 2 (by norm_num)
  have hmod : n % U32 = n := Nat.mod_eq_of_lt hn
  by_cases h5 : n = 5
  · subst h5
    have hq' := hq5 rfl
    have h42 : (8 * 5 + 2 : Nat) = 42 := rfl
    rw [h42] at hrv hdrop hdrop1 hrv2 hp1pos hlen1 htag hshift henc1
    -- the field-5 handler: the length-delimited read overruns by one byte
    have hrs : read_string data (pos + (encodeVarint 42).length)
        = ([], pos + (encodeVarint 42).length + (encodeVarint q.length).length) := by
      rw [read_string_def, hrv2]
      show read_bytes data _ q.length = _
      unfold read_bytes
      rw [if_pos (by omega)]
    obtain ⟨f1, rfl⟩ : ∃ f1, fuel = f1 + 1 := ⟨fuel - 1, by omega⟩
    rw [signatures_loop_five_empty data pos 42 _ _ acc f1 hpos hrv
      (by rw [hshift]; exact hmod) hrs]
    have hdrop2 : data.drop
        (pos + (encodeVarint 42).length + (encodeVarint q.length).length)
        = q.dropLast := drop_add_of_drop hdrop1
    have hne2 : encField (2, FieldVal.ldelim vb) ≠ [] :=
      List.length_pos.mp (by have := encField_length_pos (2, FieldVal.ldelim vb); omega)
    have hqd : q.dropLast
        = encField (1, .ldelim k) ++ (encField (2, .ldelim vb)).dropLast := by
      rw [hq']
      unfold entryEnc
      exact List.dropLast_append_of_ne_nil _ hne2
    rw [hqd] at hdrop2
    have hfe1 := encField_length_pos (1, FieldVal.ldelim k)
    have hlen2 := congrArg List.length hdrop2
    simp only [List.length_drop, List.length_append] at hlen2
    obtain ⟨f2, rfl⟩ : ∃ f2, f1 = f2 + 1 := ⟨f1 - 1, by omega⟩
    rw [signatures_loop_step 1 (.ldelim k)
      ⟨by rw [U32_eq]; norm_num, hkl, by norm_num⟩ hdrop2 acc acc
      (by simp [outer_field_effect]) f2]
    have hdrop3 : data.drop
        (pos + (encodeVarint 42).length + (encodeVarint q.length).length
          + (encField (1, FieldVal.ldelim k)).length)
        = (encField (2, .ldelim vb)).dropLast := drop_add_of_drop hdrop2
    by_cases hvb : vb = []
    · subst hvb
      have hdl : (encField (2, FieldVal.ldelim ([] : List Nat))).dropLast
          = encodeVarint 18 ++ [] := rfl
      rw [hdl] at hdrop3
      have hrv3 := read_varint_enc (show (18 : Nat) < U64 by rw [U64_eq]; norm_num) hdrop3
      have hpos3 : _ < data.length := pos_lt_of_drop_encodeVarint hdrop3
      have hlen3 := congrArg List.length hdrop3
      simp only [List.length_drop, List.length_append, List.length_nil] at hlen3
      have h18len : (encodeVarint 18).length = 1 := rfl
      rw [h18len] at hlen3 hrv3
      have hoff1 : data.length ≤ pos + (encodeVarint 42).length
          + (encodeVarint q.length).length + (encField (1, FieldVal.ldelim k)).length + 1 := by
        omega
      obtain ⟨f3, rfl⟩ : ∃ f3, f2 = f3 + 1 := ⟨f2 - 1, by omega⟩
      obtain ⟨f4, rfl⟩ : ∃ f4, f3 = f4 + 1 := ⟨f3 - 1, by omega⟩
      rw [show f4 + 1 + 1 = f4 + 2 from rfl]
      exact signatures_loop_skip2_off_end data _ 18 0 _ _ acc f4 hpos3 hrv3
        (by rw [show (18 : Nat) >>> 3 = 2 by decide]
            rw [Nat.mod_eq_of_lt (by rw [U32_eq]; norm_num)]
            norm_num)
        (by decide)
        (read_varint_at_end hoff1)
        (by omega)
    · have hlv : encodeVarint vb.length ++ vb ≠ [] := by simp [hvb]
      have hdl : (encField (2, FieldVal.ldelim vb)).dropLast
          = encodeVarint 18 ++ (encodeVarint vb.length ++ vb.dropLast) := by
        rw [encField_def]
        simp only [wireOf, encFieldVal]
        rw [List.dropLast_append_of_ne_nil _ hlv, List.dropLast_append_of_ne_nil _ hvb]
      rw [hdl] at hdrop3
      have hrv3 := read_varint_enc (show (18 : Nat) < U64 by rw [U64_eq]; norm_num) hdrop3
      have hpos3 : _ < data.length := pos_lt_of_drop_encodeVarint hdrop3
      have hdrop4 := drop_add_of_drop hdrop3
      have hrv4 := read_varint_enc hvbl hdrop4
      have hvb1 : 1 ≤ vb.length := List.length_pos.mpr hvb
      have hlen4 := congrArg List.length hdrop4
      simp only [List.length_drop, List.length_append, List.length_dropLast] at hlen4
      have henc4 := encodeVarint_length_pos vb.length
      have h18len : (encodeVarint 18).length = 1 := rfl
      rw [h18len] at hrv3
      obtain ⟨f3, rfl⟩ : ∃ f3, f2 = f3 + 1 := ⟨f2 - 1, by omega⟩
      obtain ⟨f4, rfl⟩ : ∃ f4, f3 = f4 + 1 := ⟨f3 - 1, by omega⟩
      rw [show f4 + 1 + 1 = f4 + 2 from rfl]
      exact signatures_loop_skip2_off_end data _ 18 vb.length _ _ acc f4 hpos3 hrv3
        (by rw [show (18 : Nat) >>> 3 = 2 by decide]
            rw [Nat.mod_eq_of_lt (by rw [U32_eq]; norm_num)]
            norm_num)
        (by decide)
        hrv4
        (by omega)
  · obtain ⟨f1, rfl⟩ : ∃ f1, fuel = f1 + 1 := ⟨fuel - 1, by omega⟩
    obtain ⟨f2, rfl⟩ : ∃ f2, f1 = f2 + 1 := ⟨f1 - 1, by omega⟩
    rw [show f2 + 1 + 1 = f2 + 2 from rfl]
    exact signatures_loop_skip2_off_end data pos (8 * n + 2) q.length _ _ acc f2 hpos hrv
      (by rw [hshift, hmod]; exact h5)
      (tag_and7 n 2 (by norm_num))
      hrv2
      (by omega)

/-- C3: take a well-formed outer buffer (a list of well-formed fields
followed by a final length-delimited field; a final field numbered 5 is a
well-formed signature map entry) and remove the last byte of that final
field.  Decoding the truncated buffer yields exactly the table of the
earlier fields — the trailing truncated value is absent — and decoding the
untruncated buffer differs from it at most at the final entry's key, so
every earlier signature is decoded identically. -/
theorem truncated_final_field (fs : List (Nat × FieldVal)) (n : Nat) (q k vb : List Nat)
    (hwf : ∀ f ∈ fs, OuterWF f) (hn : n < U32) (hqne : q ≠ []) (hql : q.length < U64)
    (hq5 : n = 5 → q = entryEnc k vb) (hkl : k.length < U64) (hvbl : vb.length < U64) :
    ∃ base tfull,
      ParseSignatures (encFields fs) = some base ∧
      ParseSignatures ((encFields fs ++ encField (n, .ldelim q)).dropLast) = some base ∧
      ParseSignatures (encFields fs ++ encField (n, .ldelim q)) = some tfull ∧
      (∀ key, key ≠ k → mapGet tfull key = mapGet base key) := by
  have hrunS := run_outer_fields_isSome [] fs
  rcases hrun : run_outer_fields [] fs with _ | base
  · rw [hrun] at hrunS; simp at hrunS
  have hbase := ParseSignatures_encFields fs hwf base hrun
  have hwfF : OuterWF (n, .ldelim q) := ⟨hn, hql, fun _ => rfl⟩
  have heffS : (outer_field_effect base (n, .ldelim q)).isSome := by
    simp only [outer_field_effect]
    by_cases h5 : n = 5
    · rw [if_pos h5]; exact signatures_entry_isSome base q
    · rw [if_neg h5]; simp
  rcases heff : outer_field_effect base (n, .ldelim q) with _ | tfull
  · rw [heff] at heffS; simp at heffS
  have hrunF : run_outer_fields [] (fs ++ [(n, .ldelim q)]) = some tfull := by
    rw [run_outer_fields_append, hrun]
    simp [run_outer_fields, heff]
  have hwfA : ∀ f ∈ fs ++ [(n, .ldelim q)], OuterWF f := by
    intro f hf
    rcases List.mem_append.mp hf with h | h
    · exact hwf f h
    · simp at h; subst h; exact hwfF
  have hfull := ParseSignatures_encFields _ hwfA tfull hrunF
  rw [encFields_append] at hfull
  have hsingle : encFields [(n, FieldVal.ldelim q)] = encField (n, FieldVal.ldelim q) := by
    simp [encFields]
  rw [hsingle] at hfull
  have hfne : encField (n, FieldVal.ldelim q) ≠ [] :=
    List.length_pos.mp (by have := encField_length_pos (n, FieldVal.ldelim q); omega)
  have htrunceq : (encFields fs ++ encField (n, .ldelim q)).dropLast
      = encFields fs ++ (encodeVarint (8 * n + 2) ++ (encodeVarint q.length ++ q.dropLast)) := by
    rw [List.dropLast_append_of_ne_nil _ hfne]
    congr 1
    rw [encField_def]
    simp only [wireOf, encFieldVal]
    have hqlne : encodeVarint q.length ++ q ≠ [] := by simp [hqne]
    rw [List.dropLast_append_of_ne_nil _ hqlne, List.dropLast_append_of_ne_nil _ hqne]
  have htrunc : ParseSignatures ((encFields fs ++ encField (n, .ldelim q)).dropLast)
      = some base := by
    rw [htrunceq]
    unfold ParseSignatures
    have hge := length_le_encFields fs
    have hsplit : (encFields fs
          ++ (encodeVarint (8 * n + 2) ++ (encodeVarint q.length ++ q.dropLast))).length + 1
        = fs.length + ((encFields fs
          ++ (encodeVarint (8 * n + 2) ++ (encodeVarint q.length ++ q.dropLast))).length + 1
            - fs.length) := by
      simp only [List.length_append]
      omega
    rw [hsplit, signatures_loop_fields fs _
      (encodeVarint (8 * n + 2) ++ (encodeVarint q.length ++ q.dropLast)) 0 [] base _
      (by simp) hwf hrun]
    apply signatures_loop_trunc_tail _ _ n q k vb hn hqne hql hq5 hkl hvbl
    · rw [Nat.zero_add]
      exact List.drop_left _ _
    · simp only [List.length_append]
      omega
  have hkeys : ∀ key, key ≠ k → mapGet tfull key = mapGet base key := by
    intro key hkey
    simp only [outer_field_effect] at heff
    by_cases h5 : n = 5
    · rw [if_pos h5, hq5 h5, signatures_entry_entryEnc base k vb hkl hvbl] at heff
      by_cases hcond : k ≠ [] ∧ vb ≠ []
      · rw [if_pos hcond] at heff
        have hps := ParseSignatureDef_isSome vb
        rcases hs : ParseSignatureDef vb with _ | s
        · rw [hs] at hps; simp at hps
        · rw [hs] at heff
          obtain rfl : mapSet base k { s with key := k } = tfull := Option.some.inj heff
          exact mapGet_mapSet_ne base k key _ hkey
      · rw [if_neg hcond] at heff
        obtain rfl : base = tfull := Option.some.inj heff
        rfl
    · rw [if_neg h5] at heff
      obtain rfl : base = tfull := Option.some.inj heff
      rfl
  exact ⟨base, tfull, hbase, htrunc, hfull, hkeys⟩

/-! ### The decoders do not depend on the first byte once the cursor is past it

These congruence lemmas power the wire-type claims: two buffers differing
only in their first byte are treated identically by every operation that
starts at a position of at least 1. -/

lemma read_varint_loop_cons (x y : Nat) (r : List Nat) :
    ∀ (fuel pos val shift : Nat), 1 ≤ pos →
    read_varint_loop (x :: r) pos val shift fuel
      = read_varint_loop (y :: r) pos val shift fuel := by
  intro fuel
  induction fuel with
  | zero => intro pos val shift _; rfl
  | succ f ih =>
    intro pos val shift hpos
    obtain ⟨p, rfl⟩ : ∃ p, pos = p + 1 := ⟨pos - 1, by omega⟩
    simp only [read_varint_loop, List.getD_cons_succ]
    split
    · rfl
    · exact ih (p + 1 + 1) _ _ (by omega)

lemma read_varint_cons (x y : Nat) (r : List Nat) (pos : Nat) (h : 1 ≤ pos) :
    read_varint (x :: r) pos = read_varint (y :: r) pos := by
  unfold read_varint
  simp only [List.length_cons]
  exact read_varint_loop_cons x y r _ pos 0 0 h

lemma read_bytes_cons (x y : Nat) (r : List Nat) (pos len : Nat) (h : 1 ≤ pos) :
    read_bytes (x :: r) pos len = read_bytes (y :: r) pos len := by
  obtain ⟨p, rfl⟩ : ∃ p, pos = p + 1 := ⟨pos - 1, by omega⟩
  unfold read_bytes
  simp only [List.length_cons, List.drop_succ_cons]

lemma read_string_cons (x y : Nat) (r : List Nat) (pos : Nat) (h : 1 ≤ pos) :
    read_string (x :: r) pos = read_string (y :: r) pos := by
  rw [read_string_def, read_string_def, read_varint_cons x y r pos h]
  exact read_bytes_cons x y r _ _ (le_trans h (le_read_varint_snd _ pos))

lemma skip_cons (x y : Nat) (r : List Nat) (pos wt : Nat) (h : 1 ≤ pos) :
    skip (x :: r) pos wt = skip (y :: r) pos wt := by
  unfold skip
  split_ifs
  · rw [read_varint_cons x y r pos h]
  · rw [read_varint_cons x y r pos h]
  · rfl
  · rfl
  · rfl

lemma signatures_loop_cons (x y : Nat) (r : List Nat) :
    ∀ (fuel pos : Nat) (acc : List (List Nat × Signature)), 1 ≤ pos →
    signatures_loop (x :: r) pos acc fuel = signatures_loop (y :: r) pos acc fuel := by
  intro fuel
  induction fuel with
  | zero => intro pos acc _; rfl
  | succ f ih =>
    intro pos acc hpos
    simp only [signatures_loop, List.length_cons]
    rw [read_varint_cons x y r pos hpos]
    rcases hrv : read_varint (y :: r) pos with ⟨t, p1⟩
    have hp1 : 1 ≤ p1 := by
      have := le_read_varint_snd (y :: r) pos; rw [hrv] at this; omega
    simp only
    split
    · split
      · rw [read_string_cons x y r p1 hp1]
        rcases hrs : read_string (y :: r) p1 with ⟨blob, p2⟩
        have hp2 : 1 ≤ p2 := by
          have := le_read_string_snd (y :: r) p1; rw [hrs] at this; omega
        simp only
        rcases signatures_entry acc blob with _ | acc2
        · rfl
        · exact ih p2 acc2 hp2
      · rw [skip_cons x y r p1 _ hp1]
        exact ih _ acc (le_trans hp1 (le_skip (y :: r) p1 _))
    · rfl

lemma kv_entry_loop_cons (x y : Nat) (r : List Nat) :
    ∀ (fuel pos : Nat) (key vb : List Nat), 1 ≤ pos →
    kv_entry_loop (x :: r) pos key vb fuel = kv_entry_loop (y :: r) pos key vb fuel := by
  intro fuel
  induction fuel with
  | zero => intro pos key vb _; rfl
  | succ f ih =>
    intro pos key vb hpos
    simp only [kv_entry_loop, List.length_cons]
    rw [read_varint_cons x y r pos hpos]
    rcases hrv : read_varint (y :: r) pos with ⟨t, p1⟩
    have hp1 : 1 ≤ p1 := by
      have := le_read_varint_snd (y :: r) pos; rw [hrv] at this; omega
    simp only
    split
    · split
      · rw [read_string_cons x y r p1 hp1]
        rcases hrs : read_string (y :: r) p1 with ⟨k2, p2⟩
        have hp2 : 1 ≤ p2 := by
          have := le_read_string_snd (y :: r) p1; rw [hrs] at this; omega
        exact ih p2 _ _ hp2
      · split
        · rw [read_string_cons x y r p1 hp1]
          rcases hrs : read_string (y :: r) p1 with ⟨vb2, p2⟩
          have hp2 : 1 ≤ p2 := by
            have := le_read_string_snd (y :: r) p1; rw [hrs] at this; omega
          exact ih p2 _ _ hp2
        · rw [skip_cons x y r p1 _ hp1]
          exact ih _ _ _ (le_trans hp1 (le_skip (y :: r) p1 _))
    · rfl

lemma sigdef_loop_cons (x y : Nat) (r : List Nat) :
    ∀ (fuel pos : Nat) (sig : Signature), 1 ≤ pos →
    sigdef_loop (x :: r) pos sig fuel = sigdef_loop (y :: r) pos sig fuel := by
  intro fuel
  induction fuel with
  | zero => intro pos sig _; rfl
  | succ f ih =>
    intro pos sig hpos
    simp only [sigdef_loop, List.length_cons]
    rw [read_varint_cons x y r pos hpos]
    rcases hrv : read_varint (y :: r) pos with ⟨t, p1⟩
    have hp1 : 1 ≤ p1 := by
      have := le_read_varint_snd (y :: r) pos; rw [hrv] at this; omega
    simp only
    split
    · split
      · rw [read_string_cons x y r p1 hp1]
        rcases hrs : read_string (y :: r) p1 with ⟨blob, p2⟩
        have hp2 : 1 ≤ p2 := by
          have := le_read_string_snd (y :: r) p1; rw [hrs] at this; omega
        simp only
        split
        · rcases ParseIOMapEntry blob sig.inputs with _ | m
          · rfl
          · exact ih p2 _ hp2
        · rcases ParseIOMapEntry blob sig.outputs with _ | m
          · rfl
          · exact ih p2 _ hp2
      · rw [skip_cons x y r p1 _ hp1]
        exact ih _ sig (le_trans hp1 (le_skip (y :: r) p1 _))
    · rfl

lemma info_loop_cons (x y : Nat) (r : List Nat) :
    ∀ (fuel pos : Nat) (info : TensorInfo), 1 ≤ pos →
    info_loop (x :: r) pos info fuel = info_loop (y :: r) pos info fuel := by
  intro fuel
  induction fuel with
  | zero => intro pos info _; rfl
  | succ f ih =>
    intro pos info hpos
    simp only [info_loop, List.length_cons]
    rw [read_varint_cons x y r pos hpos]
    rcases hrv : read_varint (y :: r) pos with ⟨t, p1⟩
    have hp1 : 1 ≤ p1 := by
      have := le_read_varint_snd (y :: r) pos; rw [hrv] at this; omega
    simp only
    split
    · split
      · rw [read_string_cons x y r p1 hp1]
        rcases hrs : read_string (y :: r) p1 with ⟨nm, p2⟩
        have hp2 : 1 ≤ p2 := by
          have := le_read_string_snd (y :: r) p1; rw [hrs] at this; omega
        exact ih p2 _ hp2
      · split
        · rw [read_varint_cons x y r p1 hp1]
          rcases hrv2 : read_varint (y :: r) p1 with ⟨v, p2⟩
          have hp2 : 1 ≤ p2 := by
            have := le_read_varint_snd (y :: r) p1; rw [hrv2] at this; omega
          exact ih p2 _ hp2
        · split
          · rw [read_string_cons x y r p1 hp1]
            rcases hrs : read_string (y :: r) p1 with ⟨sb, p2⟩
            have hp2 : 1 ≤ p2 := by
              have := le_read_string_snd (y :: r) p1; rw [hrs] at this; omega
            simp only
            rcases ParseTensorShape sb with _ | sh
            · rfl
            · exact ih p2 _ hp2
          · rw [skip_cons x y r p1 _ hp1]
            exact ih _ info (le_trans hp1 (le_skip (y :: r) p1 _))
    · rfl

lemma read_varint_cons_head (t : Nat) (rest : List Nat) (h : t < 128) :
    read_varint (t :: rest) 0 = (t, 1) := by
  have henc : encodeVarint t = [t] := by
    rw [encodeVarint_eq t (lt_trans h (by norm_num)), if_pos h]
  have hd : (t :: rest).drop 0 = encodeVarint t ++ rest := by rw [henc]; rfl
  have hres := read_varint_enc (show t < U64 by rw [U64_eq]; omega) hd
  rw [henc] at hres
  simpa using hres

lemma signatures_loop_cons_tag5 (t t' : Nat) (rest : List Nat)
    (acc : List (List Nat × Signature)) (fuel : Nat)
    (ht : t < 128) (ht' : t' < 128) (hsh : t >>> 3 = t' >>> 3) (h5 : t >>> 3 = 5) :
    signatures_loop (t :: rest) 0 acc (fuel + 1)
      = signatures_loop (t' :: rest) 0 acc (fuel + 1) := by
  have hrv := read_varint_cons_head t rest ht
  have hrv' := read_varint_cons_head t' rest ht'
  have hm : (t >>> 3) % U32 = 5 := by
    rw [h5]; exact Nat.mod_eq_of_lt (by rw [U32_eq]; norm_num)
  have hm' : (t' >>> 3) % U32 = 5 := by rw [← hsh]; exact hm
  have h01 : (0 : Nat) < rest.length + 1 := Nat.succ_pos _
  simp only [signatures_loop, List.length_cons, if_pos h01, hrv, hrv', hm, hm',
    eq_self_iff_true, if_true]
  rw [read_string_cons t t' rest 1 (le_refl 1)]
  rcases hrs : read_string (t' :: rest) 1 with ⟨blob, p2⟩
  have hp2 : 1 ≤ p2 := by
    have := le_read_string_snd (t' :: rest) 1; rw [hrs] at this; omega
  simp only
  rcases signatures_entry acc blob with _ | acc2
  · rfl
  · exact signatures_loop_cons t t' rest fuel p2 acc2 hp2

lemma kv_entry_loop_cons_tag (t t' : Nat) (rest : List Nat) (key vb : List Nat) (fuel : Nat)
    (ht : t < 128) (ht' : t' < 128) (hsh : t >>> 3 = t' >>> 3)
    (hf : t >>> 3 = 1 ∨ t >>> 3 = 2) :
    kv_entry_loop (t :: rest) 0 key vb (fuel + 1)
      = kv_entry_loop (t' :: rest) 0 key vb (fuel + 1) := by
  have hrv := read_varint_cons_head t rest ht
  have hrv' := read_varint_cons_head t' rest ht'
  have h01 : (0 : Nat) < rest.length + 1 := Nat.succ_pos _
  rcases hf with hf | hf
  · have hm : (t >>> 3) % U32 = 1 := by
      rw [hf]; exact Nat.mod_eq_of_lt (by rw [U32_eq]; norm_num)
    have hm' : (t' >>> 3) % U32 = 1 := by rw [← hsh]; exact hm
    simp only [kv_entry_loop, List.length_cons, if_pos h01, hrv, hrv', hm, hm',
      eq_self_iff_true, if_true]
    rw [read_string_cons t t' rest 1 (le_refl 1)]
    rcases hrs : read_string (t' :: rest) 1 with ⟨k2, p2⟩
    have hp2 : 1 ≤ p2 := by
      have := le_read_string_snd (t' :: rest) 1; rw [hrs] at this; omega
    exact kv_entry_loop_cons t t' rest fuel p2 _ _ hp2
  · have hm : (t >>> 3) % U32 = 2 := by
      rw [hf]; exact Nat.mod_eq_of_lt (by rw [U32_eq]; norm_num)
    have hm' : (t' >>> 3) % U32 = 2 := by rw [← hsh]; exact hm
    simp only [kv_entry_loop, List.length_cons, if_pos h01, hrv, hrv', hm, hm',
      eq_self_iff_true, if_true, if_neg (show ¬(2 : Nat) = 1 by norm_num)]
    rw [read_string_cons t t' rest 1 (le_refl 1)]
    rcases hrs : read_string (t' :: rest) 1 with ⟨vb2, p2⟩
    have hp2 : 1 ≤ p2 := by
      have := le_read_string_snd (t' :: rest) 1; rw [hrs] at this; omega
    exact kv_entry_loop_cons t t' rest fuel p2 _ _ hp2

lemma sigdef_loop_cons_tag (t t' : Nat) (rest : List Nat) (sig : Signature) (fuel : Nat)
    (ht : t < 128) (ht' : t' < 128) (hsh : t >>> 3 = t' >>> 3)
    (hf : t >>> 3 = 1 ∨ t >>> 3 = 2) :
    sigdef_loop (t :: rest) 0 sig (fuel + 1)
      = sigdef_loop (t' :: rest) 0 sig (fuel + 1) := by
  have hrv := read_varint_cons_head t rest ht
  have hrv' := read_varint_cons_head t' rest ht'
  have h01 : (0 : Nat) < rest.length + 1 := Nat.succ_pos _
  rcases hf with hf | hf
  · have hm : (t >>> 3) % U32 = 1 := by
      rw [hf]; exact Nat.mod_eq_of_lt (by rw [U32_eq]; norm_num)
    have hm' : (t' >>> 3) % U32 = 1 := by rw [← hsh]; exact hm
    simp only [sigdef_loop, List.length_cons, if_pos h01, hrv, hrv', hm, hm',
      eq_self_iff_true, if_true, true_or]
    rw [read_string_cons t t' rest 1 (le_refl 1)]
    rcases hrs : read_string (t' :: rest) 1 with ⟨blob, p2⟩
    have hp2 : 1 ≤ p2 := by
      have := le_read_string_snd (t' :: rest) 1; rw [hrs] at this; omega
    simp only
    rcases ParseIOMapEntry blob sig.inputs with _ | m
    · rfl
    · exact sigdef_loop_cons t t' rest fuel p2 _ hp2
  · have hm : (t >>> 3) % U32 = 2 := by
      rw [hf]; exact Nat.mod_eq_of_lt (by rw [U32_eq]; norm_num)
    have hm' : (t' >>> 3) % U32 = 2 := by rw [← hsh]; exact hm
    simp only [sigdef_loop, List.length_cons, if_pos h01, hrv, hrv', hm, hm',
      eq_self_iff_true, if_true, or_true, if_neg (show ¬(2 : Nat) = 1 by norm_num)]
    rw [read_string_cons t t' rest 1 (le_refl 1)]
    rcases hrs : read_string (t' :: rest) 1 with ⟨blob, p2⟩
    have hp2 : 1 ≤ p2 := by
      have := le_read_string_snd (t' :: rest) 1; rw [hrs] at this; omega
    simp only
    rcases ParseIOMapEntry blob sig.outputs with _ | m
    · rfl
    · exact sigdef_loop_cons t t' rest fuel p2 _ hp2

lemma info_loop_cons_tag (t t' : Nat) (rest : List Nat) (info : TensorInfo) (fuel : Nat)
    (ht : t < 128) (ht' : t' < 128) (hsh : t >>> 3 = t' >>> 3)
    (hf : t >>> 3 = 1 ∨ t >>> 3 = 2 ∨ t >>> 3 = 3) :
    info_loop (t :: rest) 0 info (fuel + 1)
      = info_loop (t' :: rest) 0 info (fuel + 1) := by
  have hrv := read_varint_cons_head t rest ht
  have hrv' := read_varint_cons_head t' rest ht'
  have h01 : (0 : Nat) < rest.length + 1 := Nat.succ_pos _
  rcases hf with hf | hf | hf
  · have hm : (t >>> 3) % U32 = 1 := by
      rw [hf]; exact Nat.mod_eq_of_lt (by rw [U32_eq]; norm_num)
    have hm' : (t' >>> 3) % U32 = 1 := by rw [← hsh]; exact hm
    simp only [info_loop, List.length_cons, if_pos h01, hrv, hrv', hm, hm',
      eq_self_iff_true, if_true]
    rw [read_string_cons t t' rest 1 (le_refl 1)]
    rcases hrs : read_string (t' :: rest) 1 with ⟨nm, p2⟩
    have hp2 : 1 ≤ p2 := by
      have := le_read_string_snd (t' :: rest) 1; rw [hrs] at this; omega
    exact info_loop_cons t t' rest fuel p2 _ hp2
  · have hm : (t >>> 3) % U32 = 2 := by
      rw [hf]; exact Nat.mod_eq_of_lt (by rw [U32_eq]; norm_num)
    have hm' : (t' >>> 3) % U32 = 2 := by rw [← hsh]; exact hm
    simp only [info_loop, List.length_cons, if_pos h01, hrv, hrv', hm, hm',
      eq_self_iff_true, if_true, if_neg (show ¬(2 : Nat) = 1 by norm_num)]
    rw [read_varint_cons t t' rest 1 (le_refl 1)]
    rcases hrv2 : read_varint (t' :: rest) 1 with ⟨v, p2⟩
    have hp2 : 1 ≤ p2 := by
      have := le_read_varint_snd (t' :: rest) 1; rw [hrv2] at this; omega
    exact info_loop_cons t t' rest fuel p2 _ hp2
  · have hm : (t >>> 3) % U32 = 3 := by
      rw [hf]; exact Nat.mod_eq_of_lt (by rw [U32_eq]; norm_num)
    have hm' : (t' >>> 3) % U32 = 3 := by rw [← hsh]; exact hm
    simp only [info_loop, List.length_cons, if_pos h01, hrv, hrv', hm, hm',
      eq_self_iff_true, if_true, if_neg (show ¬(3 : Nat) = 1 by norm_num),
      if_neg (show ¬(3 : Nat) = 2 by norm_num)]
    rw [read_string_cons t t' rest 1 (le_refl 1)]
    rcases hrs : read_string (t' :: rest) 1 with ⟨sb, p2⟩
    have hp2 : 1 ≤ p2 := by
      have := le_read_string_snd (t' :: rest) 1; rw [hrs] at this; omega
    simp only
    rcases ParseTensorShape sb with _ | sh
    · rfl
    · exact info_loop_cons t t' rest fuel p2 _ hp2

/-- C10: at every message level, a tag whose field number the decoder
recognizes is handled according to the field's expected kind, with the
wire-type bits of the tag ignored: the result is the same for every wire
type 0..7 in the tag.  Covered: field 5 of the outer message (read as
length-delimited even when the tag says varint), fields 1 and 2 of both
map-entry levels and of `SignatureDef`, and fields 1, 2, 3 of
`TensorInfo`. -/
theorem recognized_fields_ignore_wire_type :
    (∀ (rest : List Nat) (wt wt' : Nat), wt < 8 → wt' < 8 →
      ParseSignatures ((8 * 5 + wt) :: rest) = ParseSignatures ((8 * 5 + wt') :: rest)) ∧
    (∀ (rest : List Nat) (wt wt' : Nat) (acc : List (List Nat × Signature)),
      wt < 8 → wt' < 8 →
      signatures_entry acc ((8 * 1 + wt) :: rest) = signatures_entry acc ((8 * 1 + wt') :: rest) ∧
      signatures_entry acc ((8 * 2 + wt) :: rest) = signatures_entry acc ((8 * 2 + wt') :: rest)) ∧
    (∀ (rest : List Nat) (wt wt' : Nat) (m : List (List Nat × TensorInfo)),
      wt < 8 → wt' < 8 →
      ParseIOMapEntry ((8 * 1 + wt) :: rest) m = ParseIOMapEntry ((8 * 1 + wt') :: rest) m ∧
      ParseIOMapEntry ((8 * 2 + wt) :: rest) m = ParseIOMapEntry ((8 * 2 + wt') :: rest) m) ∧
    (∀ (rest : List Nat) (wt wt' : Nat), wt < 8 → wt' < 8 →
      ParseSignatureDef ((8 * 1 + wt) :: rest) = ParseSignatureDef ((8 * 1 + wt') :: rest) ∧
      ParseSignatureDef ((8 * 2 + wt) :: rest) = ParseSignatureDef ((8 * 2 + wt') :: rest)) ∧
    (∀ (rest : List Nat) (wt wt' : Nat), wt < 8 → wt' < 8 →
      ParseTensorInfo ((8 * 1 + wt) :: rest) = ParseTensorInfo ((8 * 1 + wt') :: rest) ∧
      ParseTensorInfo ((8 * 2 + wt) :: rest) = ParseTensorInfo ((8 * 2 + wt') :: rest) ∧
      ParseTensorInfo ((8 * 3 + wt) :: rest) = ParseTensorInfo ((8 * 3 + wt') :: rest)) := by
  refine ⟨?_, ?_, ?_, ?_, ?_⟩
  · intro rest wt wt' hwt hwt'
    unfold ParseSignatures
    simp only [List.length_cons]
    exact signatures_loop_cons_tag5 (8 * 5 + wt) (8 * 5 + wt') rest [] (rest.length + 1)
      (by omega) (by omega) (by rw [tag_shift 5 wt hwt, tag_shift 5 wt' hwt'])
      (tag_shift 5 wt hwt)
  · intro rest wt wt' acc hwt hwt'
    constructor
    · unfold signatures_entry
      simp only [List.length_cons]
      rw [kv_entry_loop_cons_tag (8 * 1 + wt) (8 * 1 + wt') rest [] [] (rest.length + 1)
        (by omega) (by omega) (by rw [tag_shift 1 wt hwt, tag_shift 1 wt' hwt'])
        (Or.inl (tag_shift 1 wt hwt))]
    · unfold signatures_entry
      simp only [List.length_cons]
      rw [kv_entry_loop_cons_tag (8 * 2 + wt) (8 * 2 + wt') rest [] [] (rest.length + 1)
        (by omega) (by omega) (by rw [tag_shift 2 wt hwt, tag_shift 2 wt' hwt'])
        (Or.inr (tag_shift 2 wt hwt))]
  · intro rest wt wt' m hwt hwt'
    constructor
    · unfold ParseIOMapEntry
      simp only [List.length_cons]
      rw [kv_entry_loop_cons_tag (8 * 1 + wt) (8 * 1 + wt') rest [] [] (rest.length + 1)
        (by omega) (by omega) (by rw [tag_shift 1 wt hwt, tag_shift 1 wt' hwt'])
        (Or.inl (tag_shift 1 wt hwt))]
    · unfold ParseIOMapEntry
      simp only [List.length_cons]
      rw [kv_entry_loop_cons_tag (8 * 2 + wt) (8 * 2 + wt') rest [] [] (rest.length + 1)
        (by omega) (by omega) (by rw [tag_shift 2 wt hwt, tag_shift 2 wt' hwt'])
        (Or.inr (tag_shift 2 wt hwt))]
  · intro rest wt wt' hwt hwt'
    constructor
    · unfold ParseSignatureDef
      simp only [List.length_cons]
      rw [sigdef_loop_cons_tag (8 * 1 + wt) (8 * 1 + wt') rest {} (rest.length + 1)
        (by omega) (by omega) (by rw [tag_shift 1 wt hwt, tag_shift 1 wt' hwt'])
        (Or.inl (tag_shift 1 wt hwt))]
    · unfold ParseSignatureDef
      simp only [List.length_cons]
      rw [sigdef_loop_cons_tag (8 * 2 + wt) (8 * 2 + wt') rest {} (rest.length + 1)
        (by omega) (by omega) (by rw [tag_shift 2 wt hwt, tag_shift 2 wt' hwt'])
        (Or.inr (tag_shift 2 wt hwt))]
  · intro rest wt wt' hwt hwt'
    refine ⟨?_, ?_, ?_⟩
    · unfold ParseTensorInfo
      simp only [List.length_cons]
      rw [info_loop_cons_tag (8 * 1 + wt) (8 * 1 + wt') rest {} (rest.length + 1)
        (by omega) (by omega) (by rw [tag_shift 1 wt hwt, tag_shift 1 wt' hwt'])
        (Or.inl (tag_shift 1 wt hwt))]
    · unfold ParseTensorInfo
      simp only [List.length_cons]
      rw [info_loop_cons_tag (8 * 2 + wt) (8 * 2 + wt') rest {} (rest.length + 1)
        (by omega) (by omega) (by rw [tag_shift 2 wt hwt, tag_shift 2 wt' hwt'])
        (Or.inr (Or.inl (tag_shift 2 wt hwt)))]
    · unfold ParseTensorInfo
      simp only [List.length_cons]
      rw [info_loop_cons_tag (8 * 3 + wt) (8 * 3 + wt') rest {} (rest.length + 1)
        (by omega) (by omega) (by rw [tag_shift 3 wt hwt, tag_shift 3 wt' hwt'])
        (Or.inr (Or.inr (tag_shift 3 wt hwt)))]

theorem recognized_fields_ignore_wire_type_witness :
    ((0 : Nat) < 8 ∧ (2 : Nat) < 8) ∧
    ParseSignatures ((8 * 5 + 0) :: [3]) = ParseSignatures ((8 * 5 + 2) :: [3]) :=
  ⟨⟨by decide, by decide⟩,
   (recognized_fields_ignore_wire_type.1) [3] 0 2 (by decide) (by decide)⟩

theorem truncated_final_field_witness :
    ((entryEnc [97] [1] : List Nat) ≠ [] ∧ (entryEnc [97] [1]).length < U64 ∧
     ([97] : List Nat).length < U64 ∧ ([1] : List Nat).length < U64 ∧ (5 : Nat) < U32) ∧
    (∃ base tfull,
      ParseSignatures (encFields []) = some base ∧
      ParseSignatures
          ((encFields [] ++ encField (5, .ldelim (entryEnc [97] [1]))).dropLast) = some base ∧
      ParseSignatures (encFields [] ++ encField (5, .ldelim (entryEnc [97] [1]))) = some tfull ∧
      (∀ key, key ≠ [97] → mapGet tfull key = mapGet base key)) :=
  ⟨⟨by decide, by decide, by decide, by decide, by decide⟩,
   truncated_final_field [] 5 (entryEnc [97] [1]) [97] [1] (by simp) (by decide) (by decide)
     (by decide) (fun _ => rfl) (by decide) (by decide)⟩

end Cppflow
